import Mathlib

/-!
# busybox `archival/rpm.c`: tag index decoder, typed accessors, reflink planner

A shallow embedding of the functions of `archival/rpm.c`.

* C `uint32_t`/`unsigned` values are `Nat`, reduced `% 2^32` where the C
  arithmetic wraps; C `int` values are `Int`, and the conversions between the
  two are `toInt32` and `toUInt32`.
* `G.map` is the list of the mapped bytes that can be read; a read outside the
  list has no defined value in C, the embedding reads `0` there and records
  every address read in a trace, so that reads outside the mapping stay visible.
* `bsearch` and `qsort` are C library functions; they are embedded by the usual
  library algorithms (midpoint binary search, a sort by the comparator).
* `RPM_HEADER_MAGICnVER` and `struct rpm_header` are declared in `rpm.h` and
  follow the format description; the libbb function `concat_path_file` is a
  parameter of the installation.
* Strings and paths are lists of bytes without the terminating NUL.
-/

namespace Rpm

/-! ## Machine integers -/

/-- Conversion of a 32-bit pattern to C `int` (two's complement). -/
def toInt32 (n : Nat) : Int :=
  if n % 2 ^ 32 < 2 ^ 31 then ((n % 2 ^ 32 : Nat) : Int) else ((n % 2 ^ 32 : Nat) : Int) - 2 ^ 32

/-- Conversion of a C `int` to `unsigned` / `uint32_t`. -/
def toUInt32 (i : Int) : Nat := (i % 2 ^ 32).toNat

/-- Conversion of a byte to C `int8_t` widened to `int`. -/
def toInt8 (n : Nat) : Int :=
  if n % 256 < 128 then ((n % 256 : Nat) : Int) else ((n % 256 : Nat) : Int) - 256

/-! ## Data model -/

def RPM_CHAR_TYPE : Nat := 1
def RPM_INT8_TYPE : Nat := 2
def RPM_INT16_TYPE : Nat := 3
def RPM_INT32_TYPE : Nat := 4
def RPM_STRING_TYPE : Nat := 6
def RPM_BIN_TYPE : Nat := 7
def RPM_STRING_ARRAY_TYPE : Nat := 8
def RPM_I18NSTRING_TYPE : Nat := 9

def TAG_FILESIZES : Int := 1028
def TAG_FILEMODES : Int := 1030
def TAG_FILELINKTOS : Int := 1036
def TAG_FILEFLAGS : Int := 1037
def TAG_FILEINODES : Int := 1096
def TAG_DIRINDEXES : Int := 1116
def TAG_BASENAMES : Int := 1117
def TAG_DIRNAMES : Int := 1118

def RPMFILE_CONFIG : Nat := 1
def RPMFILE_DOC : Nat := 2
def RPMFILE_GHOST : Nat := 64

/-- One index record, `rpm_index`: four `uint32_t` fields. -/
structure rpm_index where
  tag : Nat
  type : Nat
  offset : Nat
  count : Nat
deriving DecidableEq, Repr

/-- The fields of `struct globals` that the decoder and the accessors use.
`G.tagcount` is the length of the `mytags` array. -/
structure globals where
  map : List Nat
  mytags : List rpm_index
  mapsize : Nat
deriving DecidableEq, Repr

/-- Number of records in `G.mytags`, the C field `G.tagcount`. -/
def globals.tagcount (G : globals) : Nat := G.mytags.length

/-! ## Lookup -/

/-- The loop of the C library `bsearch`: `l` and `u` bound the part of `base`
still searched, `compar` is the comparison of the key with an element. The first
argument bounds the number of iterations; `u - l` iterations are enough. -/
def bsearch_loop {α : Type} (compar : α → Int) (base : List α) : Nat → Nat → Nat → Option α
  | 0, _, _ => none
  | fuel + 1, l, u =>
    if l < u then
      let idx := (l + u) / 2
      match base[idx]? with
      | none => none
      | some p =>
        if compar p < 0 then bsearch_loop compar base fuel l idx
        else if compar p > 0 then bsearch_loop compar base fuel (idx + 1) u
        else some p
    else none

/-- C library `bsearch(key, base, nmemb, size, compar)`; `compar` already holds
the key. `none` is the `NULL` result. -/
def bsearch {α : Type} (compar : α → Int) (base : List α) (nmemb : Nat) : Option α :=
  bsearch_loop compar base nmemb 0 nmemb

/-- The comparison `bsearch_rpmtag`: `*tag - tmp->tag`, an `int` minus a
`uint32_t`, computed in `unsigned` and returned as `int`. -/
def bsearch_rpmtag (key : Int) (item : rpm_index) : Int :=
  toInt32 ((toUInt32 key + (2 ^ 32 - item.tag % 2 ^ 32)) % 2 ^ 32)

/-- The lookup shared by the accessors:
`bsearch(&tag, G.mytags, G.tagcount, sizeof(G.mytags[0]), bsearch_rpmtag)`. -/
def find_tag (G : globals) (tag : Int) : Option rpm_index :=
  bsearch (bsearch_rpmtag tag) G.mytags G.tagcount

/-- The function `rpm_getcount`. -/
def rpm_getcount (G : globals) (tag : Int) : Int :=
  match find_tag G tag with
  | none => 0
  | some found => toInt32 found.count

/-! ## Typed accessors -/

/-- Result of an accessor: the value returned and the addresses read, as byte
offsets from `G.map`, in the order of the reads. -/
structure Access (α : Type) where
  val : α
  reads : List Int
deriving DecidableEq, Repr

/-- The bytes of the mapping, each as an `unsigned char`. -/
def mapped_bytes (G : globals) : List Nat := G.map.map (fun b => b % 256)

/-- The byte `((unsigned char *)G.map)[addr]`; outside the mapping the C program
has no defined value and the embedding reads `0`. -/
def peek (G : globals) (addr : Int) : Nat :=
  if 0 ≤ addr then (mapped_bytes G).getD addr.toNat 0 else 0

/-- Number of bytes before the first NUL of a byte list. -/
def strlen_bytes : List Nat → Nat
  | [] => 0
  | b :: bs => if b = 0 then 0 else strlen_bytes bs + 1

/-- C library `strlen` at `G.map + addr`. -/
def strlen (G : globals) (addr : Int) : Nat :=
  if 0 ≤ addr then strlen_bytes ((mapped_bytes G).drop addr.toNat) else 0

/-- The C string at `G.map + addr`, without its terminator. -/
def cstr (G : globals) (addr : Int) : List Nat :=
  (List.range (strlen G addr)).map (fun (j : Nat) => peek G (addr + (j : Int)))

/-- The loop `for (n = 0; n < itemindex; n++) tmpstr = tmpstr + strlen(tmpstr) + 1;`
of `rpm_getstr`, with the number of iterations left, the pointer and the reads
made so far. `strlen` reads the string and its terminator. -/
def rpm_getstr_loop (G : globals) : Nat → Int → List Int → Int × List Int
  | 0, tmpstr, reads => (tmpstr, reads)
  | n + 1, tmpstr, reads =>
    rpm_getstr_loop G n (tmpstr + strlen G tmpstr + 1)
      (reads ++ (List.range (strlen G tmpstr + 1)).map (fun (j : Nat) => tmpstr + (j : Int)))

/-- The function `rpm_getstr`: `none` is `NULL`, `some p` the pointer
`G.map + p`. The test `itemindex >= found->count` compares an `int` with a
`uint32_t`, in `unsigned`. -/
def rpm_getstr (G : globals) (tag itemindex : Int) : Access (Option Int) :=
  match find_tag G tag with
  | none => ⟨none, []⟩
  | some found =>
    if toUInt32 itemindex ≥ found.count then ⟨none, []⟩
    else if found.type = RPM_STRING_TYPE ∨ found.type = RPM_I18NSTRING_TYPE
        ∨ found.type = RPM_STRING_ARRAY_TYPE then
      let r := rpm_getstr_loop G itemindex.toNat (found.offset : Int) []
      ⟨some r.1, r.2⟩
    else ⟨none, []⟩

/-- The function `rpm_getstr0`. -/
def rpm_getstr0 (G : globals) (tag : Int) : Access (Option Int) := rpm_getstr G tag 0

/-- A 32-bit word as the (little-endian) host loads it from four bytes. -/
def host32 (b0 b1 b2 b3 : Nat) : Nat := b0 + 256 * b1 + 65536 * b2 + 16777216 * b3

/-- A 16-bit word as the (little-endian) host loads it from two bytes. -/
def host16 (b0 b1 : Nat) : Nat := b0 + 256 * b1

/-- C library `ntohl` on a little-endian host: the four bytes swapped. -/
def ntohl (w : Nat) : Nat :=
  (w % 256) * 16777216 + (w / 256 % 256) * 65536 + (w / 65536 % 256) * 256 + w / 16777216 % 256

/-- C library `htonl`, the same byte swap. -/
def htonl (w : Nat) : Nat := ntohl w

/-- C library `ntohs` on a little-endian host. -/
def ntohs (w : Nat) : Nat := (w % 256) * 256 + w / 256 % 256

/-- The function `rpm_getint`. The pointer is `G.map + found->offset` advanced
by `itemindex` elements; the product `itemindex*4` is computed without
wrapping (signed overflow is undefined in C). -/
def rpm_getint (G : globals) (tag itemindex : Int) : Access Int :=
  match find_tag G tag with
  | none => ⟨-1, []⟩
  | some found =>
    if toUInt32 itemindex ≥ found.count then ⟨-1, []⟩
    else
      let tmpint : Int := (found.offset : Int)
      if found.type = RPM_INT32_TYPE then
        let p := tmpint + itemindex * 4
        ⟨toInt32 (ntohl (host32 (peek G p) (peek G (p + 1)) (peek G (p + 2)) (peek G (p + 3)))),
          [p, p + 1, p + 2, p + 3]⟩
      else if found.type = RPM_INT16_TYPE then
        let p := tmpint + itemindex * 2
        ⟨(ntohs (host16 (peek G p) (peek G (p + 1))) : Nat), [p, p + 1]⟩
      else if found.type = RPM_INT8_TYPE then
        let p := tmpint + itemindex
        ⟨toInt8 (peek G p), [p]⟩
      else ⟨-1, []⟩

/-- The element count of a tag as the index holds it, a `uint32_t`: the `count`
field of the entry that the lookup finds, 0 when it finds none. -/
def tag_count (G : globals) (tag : Int) : Nat :=
  match find_tag G tag with
  | none => 0
  | some found => found.count

/-- The four bytes at `addr` read as a big-endian 32-bit integer. -/
def be32 (G : globals) (addr : Int) : Nat :=
  peek G addr * 2 ^ 24 + peek G (addr + 1) * 2 ^ 16 + peek G (addr + 2) * 2 ^ 8 + peek G (addr + 3)

/-- The two bytes at `addr` read as a big-endian 16-bit integer. -/
def be16 (G : globals) (addr : Int) : Nat := peek G addr * 2 ^ 8 + peek G (addr + 1)

/-! ## Tag index decoder -/

/-- Modelled from the spec: the constant `RPM_HEADER_MAGICnVER` of `rpm.h`, the
three magic bytes `8e ad e8` and the version byte `01`. -/
def RPM_HEADER_MAGICnVER : Nat := 0x8eade801

/-- Modelled from the spec: `sizeof(struct rpm_header)` of `rpm.h`, four 32-bit
words `magic_and_ver`, `reserved`, `entries`, `size`. -/
def sizeof_rpm_header : Nat := 16

/-- Byte `k` of a buffer that holds it. -/
def byte_at (buf : List Nat) (k : Nat) : Nat := buf.getD k 0 % 256

/-- The `uint32_t` the host loads at byte offset `k` of a buffer. -/
def word_at (buf : List Nat) (k : Nat) : Nat :=
  host32 (byte_at buf k) (byte_at buf (k + 1)) (byte_at buf (k + 2)) (byte_at buf (k + 3))

/-- The call `xread(fd, buf, n)` at file position `pos`: the `n` bytes read, or
`none` where the file is too short and `xread` exits. -/
def xread (file : List Nat) (pos n : Nat) : Option (List Nat) :=
  if pos + n ≤ file.length then some ((file.drop pos).take n) else none

/-- The body of `while (cnt--)` in `rpm_gettags` for the record at index `k` of
the records just read into `tags`: the four fields converted from network order,
the offset made absolute, and the signature tags renumbered. -/
def convert_tag (raw : List Nat) (storepos pass k : Nat) : rpm_index :=
  let tag := ntohl (word_at raw (16 * k))
  { tag := if pass = 0 then (tag + (2 ^ 32 - 743)) % 2 ^ 32 else tag
    type := ntohl (word_at raw (16 * k + 4))
    offset := (storepos + ntohl (word_at raw (16 * k + 8))) % 2 ^ 32
    count := ntohl (word_at raw (16 * k + 12)) }

/-- The loop `while (header.size & 7) header.size++;`, at most seven rounds. -/
def pad_size_loop : Nat → Nat → Nat
  | 0, size => size
  | fuel + 1, size => if size &&& 7 ≠ 0 then pad_size_loop fuel ((size + 1) % 2 ^ 32) else size

/-- State between the passes of `rpm_gettags`: the file position of `fd`, the
variable `storepos` and the records decoded so far. -/
structure gettags_state where
  pos : Nat
  storepos : Nat
  tags : List rpm_index
deriving DecidableEq, Repr

/-- One round of `for (pass = 0; pass < 2; pass++)` in `rpm_gettags`; `none`
where `xread` or the magic test exits. -/
def gettags_pass (file : List Nat) (pass : Nat) (st : gettags_state) : Option gettags_state :=
  match xread file st.pos sizeof_rpm_header with
  | none => none
  | some header =>
    if word_at header 0 ≠ htonl RPM_HEADER_MAGICnVER then none
    else
      let size := ntohl (word_at header 12)
      let cnt := ntohl (word_at header 8)
      let storepos := (st.storepos + (sizeof_rpm_header + (cnt * 16) % 2 ^ 32)) % 2 ^ 32
      match xread file (st.pos + sizeof_rpm_header) (16 * cnt) with
      | none => none
      | some raw =>
        let tags := st.tags ++ (List.range cnt).map (convert_tag raw storepos pass)
        let size := if pass = 0 then pad_size_loop 7 size else size
        let pos := st.pos + sizeof_rpm_header + 16 * cnt + size
        some { pos := pos, storepos := pos % 2 ^ 32, tags := tags }

/-- The call `mmap_read(fd, size)` on a system with the given page size: `none`
where `mmap` returns `MAP_FAILED`, which it does for the length 0 and is taken
not to do for any other length; else the mapped bytes that can be read, the
first `size` bytes of the file with zeros up to the end of the last page of the
file. The pages of the mapping that lie wholly past the end of the file cannot
be read and are no part of the list. -/
def mmap_read (file : List Nat) (size pagesize : Nat) : Option (List Nat) :=
  if size = 0 then none
  else
    let file_pages := (file.length + (pagesize - 1)) / pagesize * pagesize
    some ((file ++ List.replicate (file_pages - file.length) 0).take size)

/-- The function `rpm_gettags` on a file whose descriptor is at position
`start`: the globals it sets and the file position it leaves, or `none` where it
exits: on a short read, a wrong magic, or `MAP_FAILED`. The seeks are taken to
succeed. -/
def rpm_gettags (file : List Nat) (start pagesize : Nat) : Option (globals × Nat) :=
  let st0 : gettags_state := { pos := start + 96, storepos := (start + 96) % 2 ^ 32, tags := [] }
  match gettags_pass file 0 st0 with
  | none => none
  | some st1 =>
    match gettags_pass file 1 st1 with
    | none => none
    | some st2 =>
      let storepos := ((st2.storepos + pagesize) % 2 ^ 32) &&& ((2 ^ 32 - pagesize % 2 ^ 32) % 2 ^ 32)
      match mmap_read file storepos pagesize with
      | none => none
      | some map => some ({ map := map, mytags := st2.tags, mapsize := storepos }, st2.pos)

/-! ## Config file backup -/

/-- File system calls made by `fileaction_dobackup`. -/
inductive FsOp where
  | copy_file (src dst : List Nat)
  | remove_file (path : List Nat)
deriving DecidableEq, Repr

def S_ISREG (mode : Nat) : Bool := mode &&& 0o170000 == 0o100000
def S_ISDIR (mode : Nat) : Bool := mode &&& 0o170000 == 0o040000
def S_ISLNK (mode : Nat) : Bool := mode &&& 0o170000 == 0o120000

/-- The bytes of `".rpmorig"`. -/
def rpmorig : List Nat := [46, 114, 112, 109, 111, 114, 105, 103]

/-- The function `fileaction_dobackup`: the file system calls it makes. `lstat`
gives the `st_mode` of a path, `none` where `lstat` fails. -/
def fileaction_dobackup (G : globals) (lstat : List Nat → Option Nat)
    (filename : List Nat) (fileref : Int) : List FsOp :=
  if toUInt32 (rpm_getint G TAG_FILEFLAGS fileref).val &&& RPMFILE_CONFIG ≠ 0 then
    match lstat filename with
    | some st_mode =>
      if S_ISREG st_mode then
        [FsOp.copy_file filename (filename ++ rpmorig), FsOp.remove_file filename]
      else []
    | none => []
  else []

/-! ## Reflink installation -/

def PAGE_SIZE : Nat := 4096

/-- The pair `ifi_t` of an inode number and a file index. -/
structure ifi_t where
  inode : Int
  fi : Int
deriving DecidableEq, Repr

/-- The comparison `compare_inodes`: by inode, lowest file index first. -/
def compare_inodes (a b : ifi_t) : Int :=
  if a.inode = b.inode then (if a.fi > b.fi then 1 else -1)
  else if a.inode > b.inode then 1
  else -1

/-- The comparison `search_inode`. -/
def search_inode (key : Int) (item : ifi_t) : Int :=
  if key = item.inode then 0
  else if key > item.inode then 1
  else -1

/-- C library `qsort(base, nmemb, size, compar)`: the elements put in the order
of `compar`, here by insertion. -/
def qsort {α : Type} (compar : α → α → Int) (base : List α) : List α :=
  base.insertionSort (fun a b => compar a b ≤ 0)

/-- The inode of file `i`, `rpm_getint(TAG_FILEINODES, i)`. -/
def file_inode (G : globals) (i : Nat) : Int := (rpm_getint G TAG_FILEINODES i).val

/-- The flags of file `i`, `unsigned flags = rpm_getint(TAG_FILEFLAGS, i)`. -/
def file_flags (G : globals) (i : Nat) : Nat := toUInt32 (rpm_getint G TAG_FILEFLAGS i).val

/-- The mode of file `i`, `unsigned mode = rpm_getint(TAG_FILEMODES, i)`. -/
def file_mode (G : globals) (i : Nat) : Nat := toUInt32 (rpm_getint G TAG_FILEMODES i).val

/-- The size of file `i`, `unsigned size = rpm_getint(TAG_FILESIZES, i)`. -/
def file_size (G : globals) (i : Nat) : Nat := toUInt32 (rpm_getint G TAG_FILESIZES i).val

/-- The first loop of `reflink_package`, which sets
`inodes[i] = { rpm_getint(TAG_FILEINODES, i), i }`. -/
def fill_inodes (G : globals) (nfiles : Nat) : List ifi_t :=
  (List.range nfiles).map (fun i => { inode := file_inode G i, fi := i })

/-- The loop `for (int i = 1; i < nfiles; ++i)` of `reflink_package` that keeps
the first pair of every inode, in place: rounds left, `i`, the array, `ninodes`. -/
def dedup_loop : Nat → Nat → List ifi_t → Nat → List ifi_t × Nat
  | 0, _, inodes, ninodes => (inodes, ninodes)
  | n + 1, i, inodes, ninodes =>
    match inodes[ninodes]?, inodes[i]? with
    | some a, some b =>
      if a.inode = b.inode then dedup_loop n (i + 1) inodes ninodes
      else dedup_loop n (i + 1) (inodes.set (ninodes + 1) b) (ninodes + 1)
    | _, _ => (inodes, ninodes)

/-- The array `inodes` and the count `ninodes` that `reflink_package` searches:
filled, sorted, deduplicated, and `++ninodes` after the loop. -/
def inode_table (G : globals) (nfiles : Nat) : List ifi_t × Nat :=
  let r := dedup_loop (nfiles - 1) 1 (qsort compare_inodes (fill_inodes G nfiles)) 0
  (r.1, r.2 + 1)

/-- What `reflink_package` does to the file system and to its output. -/
inductive Action where
  | mkdir (path : List Nat) (perms : Nat)
  | symlink (target path : List Nat)
  | link (opath path : List Nat)
  | clone (path : List Nat) (perms src_offset src_length size : Nat)
  | skip_special (d n : List Nat)
deriving DecidableEq, Repr

/-- What `reflink_package` takes from outside `rpm.c`: the globals
`G.install_root` and `G.only_prefix`, the result of `getuid()`, and the libbb
function `concat_path_file`. -/
structure Env where
  install_root : List Nat
  only_prefix : Option (List Nat)
  uid : Nat
  concat_path_file : List Nat → List Nat → List Nat

/-- The bytes a `%s` conversion prints for the result of `rpm_getstr`; for `NULL`
the C library prints `(null)`. -/
def str (G : globals) (p : Option Int) : List Nat :=
  match p with
  | some addr => cstr G addr
  | none => [40, 110, 117, 108, 108, 41]

/-- The directory name of file `i`,
`rpm_getstr(TAG_DIRNAMES, rpm_getint(TAG_DIRINDEXES, i))`, as a string. -/
def dirname (G : globals) (i : Int) : List Nat :=
  str G (rpm_getstr G TAG_DIRNAMES (rpm_getint G TAG_DIRINDEXES i).val).val

/-- The base name of file `i`, `rpm_getstr(TAG_BASENAMES, i)`, as a string. -/
def basename (G : globals) (i : Int) : List Nat :=
  str G (rpm_getstr G TAG_BASENAMES i).val

/-- The function `create_clone_from`: the file opened with `mode&07777`, the
range `[off, off + size + pad)` cloned into it, the file truncated to `size`. -/
def create_clone_from (path : List Nat) (mode off size : Nat) : Action :=
  let pad := if size &&& (PAGE_SIZE - 1) ≠ 0 then PAGE_SIZE - (size &&& (PAGE_SIZE - 1)) else 0
  Action.clone path (mode &&& 0o7777) off (size + pad) size

/-- The test `G.only_prefix && strncmp(d, G.only_prefix, strlen(G.only_prefix))`
that sets `skip` for file `i`. -/
def is_filtered (E : Env) (G : globals) (i : Nat) : Bool :=
  match E.only_prefix with
  | some pre => !(pre.isPrefixOf (dirname G i))
  | none => false

/-- The test `flags & RPMFILE_GHOST` for file `i`. -/
def is_ghost (G : globals) (i : Nat) : Bool := file_flags G i &&& RPMFILE_GHOST != 0

/-- The body of the main loop of `reflink_package` for file `i` at payload
offset `off`: the actions taken and the new offset, or `none` where the search
of the inode fails and the function exits. -/
def reflink_file (E : Env) (G : globals) (inodes : List ifi_t) (ninodes : Nat)
    (i : Nat) (off : Nat) : Option (List Action × Nat) :=
  let d := dirname G i
  let n := basename G i
  if is_ghost G i then some ([], off)
  else
    let skip : Bool := is_filtered E G i
    let mode := file_mode G i
    if skip && !(S_ISREG mode) then some ([], off)
    else if S_ISDIR mode then
      let perms := if E.uid ≠ 0 then (mode &&& 0o7777) ||| 0o700 else mode &&& 0o7777
      some ([Action.mkdir (E.install_root ++ d ++ n) perms], off)
    else if S_ISLNK mode then
      let target := str G (rpm_getstr G TAG_FILELINKTOS i).val
      some ([Action.mkdir (E.install_root ++ d) 0o755,
             Action.symlink target (E.install_root ++ d ++ n)], off)
    else if !(S_ISREG mode) then some ([Action.skip_special d n], off)
    else
      let dir := E.install_root ++ d
      let made := if skip then [] else [Action.mkdir dir 0o755]
      let path := E.concat_path_file dir n
      let inode := file_inode G i
      match bsearch (search_inode inode) inodes ninodes with
      | none => none
      | some found =>
        if found.fi ≠ (i : Int) then
          if skip then some (made, off)
          else
            let opath := E.install_root ++ dirname G found.fi ++ basename G found.fi
            some (made ++ [Action.link opath path], off)
        else
          let size := file_size G i
          let cloned := if skip then [] else [create_clone_from path mode off size]
          let off1 := off + size
          let off2 :=
            if off1 &&& (PAGE_SIZE - 1) ≠ 0 then off1 + (PAGE_SIZE - (size &&& (PAGE_SIZE - 1)))
            else off1
          some (made ++ cloned, off2)

/-- The main loop `for (int i = 0; i < nfiles; ++i)` of `reflink_package`: rounds
left, `i` and `off`; the result lists the actions of every file in turn. -/
def reflink_loop (E : Env) (G : globals) (inodes : List ifi_t) (ninodes : Nat) :
    Nat → Nat → Nat → Option (List (List Action))
  | 0, _, _ => some []
  | n + 1, i, off =>
    match reflink_file E G inodes ninodes i off with
    | none => none
    | some (acts, off1) =>
      match reflink_loop E G inodes ninodes n (i + 1) off1 with
      | none => none
      | some rest => some (acts :: rest)

/-- The payload offset at which `reflink_package` starts: the position of
`rpmfd` rounded up to the page. -/
def payload_start (pos : Nat) : Nat :=
  if pos &&& (PAGE_SIZE - 1) ≠ 0 then pos + (PAGE_SIZE - (pos &&& (PAGE_SIZE - 1))) else pos

/-- The function `reflink_package` with `rpmfd` at position `pos`: for every
file index the actions taken for it, or `none` where the function exits (a
negative `nfiles` makes `xmalloc` exit). The file system calls are taken to
succeed, and `off_t` is taken wide enough for the offsets. -/
def reflink_package (E : Env) (G : globals) (pos : Nat) : Option (List (List Action)) :=
  let nfiles := rpm_getcount G TAG_BASENAMES
  if nfiles < 0 then none
  else
    let t := inode_table G nfiles.toNat
    reflink_loop E G t.1 t.2 nfiles.toNat 0 (payload_start pos)

/-! ## Notions used in the statements about `reflink_package` -/

/-- What the deduplication loop keeps of the pairs that follow the pair `last`
it kept before: every pair whose inode differs from the one kept last. -/
def first_of_runs (last : ifi_t) : List ifi_t → List ifi_t
  | [] => []
  | b :: rest =>
    if last.inode = b.inode then first_of_runs last rest else b :: first_of_runs b rest

/-- The order of `compare_inodes`: `a` is placed before `b`. -/
def inode_le (a b : ifi_t) : Prop := compare_inodes a b ≤ 0

instance : DecidableRel inode_le := fun a b => by
  unfold inode_le
  infer_instance

/-- Number of file records, `rpm_getcount(TAG_BASENAMES)`, as a natural number. -/
def nfiles (G : globals) : Nat := (rpm_getcount G TAG_BASENAMES).toNat

/-- A size rounded up to the next multiple of the 4096-byte page. -/
def page_pad (size : Nat) : Nat := (size + (PAGE_SIZE - 1)) / PAGE_SIZE * PAGE_SIZE

/-- File `i` is a regular file that is not ghost-flagged: the records whose
content lies in the payload. -/
def has_content (G : globals) (i : Nat) : Bool := !(is_ghost G i) && S_ISREG (file_mode G i)

/-- The path `concat_path_file(install_root + dirname, basename)` at which
`reflink_package` creates regular file `i`. -/
def file_path (E : Env) (G : globals) (i : Nat) : List Nat :=
  E.concat_path_file (E.install_root ++ dirname G i) (basename G i)

/-- File `i` is the lowest of the `n` file indexes that carry its inode number. -/
def is_canonical (G : globals) (n i : Nat) : Bool :=
  decide (∀ j, j < n → file_inode G j = file_inode G i → i ≤ j)

/-- The bytes by which the payload offset advances at file `i`: the padded size
of a non-ghost regular file that is the first with its inode, 0 for any other
file. -/
def advance (G : globals) (n i : Nat) : Nat :=
  if has_content G i && is_canonical G n i then page_pad (file_size G i) else 0

/-- The action is a content write, a clone of payload bytes. -/
def is_clone_action : Action → Bool
  | Action.clone _ _ _ _ _ => true
  | _ => false

/-! ## Reference layout of a package file -/

/-- The four bytes at position `pos` of the file read as a big-endian 32-bit
integer, the wire value of a header or index field. -/
def wire32 (file : List Nat) (pos : Nat) : Nat :=
  byte_at file pos * 2 ^ 24 + byte_at file (pos + 1) * 2 ^ 16 + byte_at file (pos + 2) * 2 ^ 8
    + byte_at file (pos + 3)

/-- A size rounded up to the next multiple of 8. -/
def round_up8 (d : Nat) : Nat := (d + 7) / 8 * 8

/-- Start of the signature store: past the lead, the section header and the `n1`
index records. -/
def sig_store_start (n1 : Nat) : Nat := 96 + 16 + 16 * n1

/-- Start of the main section header: the signature store start plus `d1`
rounded up to a multiple of 8. -/
def main_header_start (n1 d1 : Nat) : Nat := sig_store_start n1 + round_up8 d1

/-- Start of the main store: `16 + 16*n2` bytes after the main header. -/
def main_store_start (n1 d1 n2 : Nat) : Nat := main_header_start n1 d1 + 16 + 16 * n2

/-- Total store length: the main store start plus `d2`. -/
def total_store_length (n1 d1 n2 d2 : Nat) : Nat := main_store_start n1 d1 n2 + d2

/-- The entry of the reference layout for the index record at file position
`recpos`, in a section whose store starts at `store`: type and count as on the
wire, the offset made absolute, the tag lowered by `renumber` in `uint32_t`
arithmetic. -/
def layout_entry (file : List Nat) (recpos store renumber : Nat) : rpm_index :=
  { tag := toUInt32 ((wire32 file recpos : Int) - (renumber : Int))
    type := wire32 file (recpos + 4)
    offset := store + wire32 file (recpos + 8)
    count := wire32 file (recpos + 12) }

/-- The entries of the reference layout: the `n1` signature records with tags
lowered by 743, then the `n2` main records. -/
def layout_entries (file : List Nat) (n1 d1 n2 : Nat) : List rpm_index :=
  (List.range n1).map (fun k => layout_entry file (96 + 16 + 16 * k) (sig_store_start n1) 743)
    ++ (List.range n2).map (fun k =>
      layout_entry file (main_header_start n1 d1 + 16 + 16 * k) (main_store_start n1 d1 n2) 0)

/-- A well-formed package file with `n1` signature records, signature data size
`d1`, `n2` main records and main data size `d2`: both section headers carry the
magic and these counts and sizes, the file holds the headers and the index
records, every record's offset lies in its section's store, and the total store
length fits the 32-bit `storepos`. -/
def well_formed (file : List Nat) (n1 d1 n2 d2 : Nat) : Prop :=
  wire32 file 96 = RPM_HEADER_MAGICnVER ∧ wire32 file (96 + 8) = n1 ∧ wire32 file (96 + 12) = d1 ∧
  wire32 file (main_header_start n1 d1) = RPM_HEADER_MAGICnVER ∧
  wire32 file (main_header_start n1 d1 + 8) = n2 ∧
  wire32 file (main_header_start n1 d1 + 12) = d2 ∧
  main_store_start n1 d1 n2 ≤ file.length ∧
  (∀ k, k < n1 → wire32 file (96 + 16 + 16 * k + 8) ≤ d1) ∧
  (∀ k, k < n2 → wire32 file (main_header_start n1 d1 + 16 + 16 * k + 8) ≤ d2) ∧
  total_store_length n1 d1 n2 d2 < 2 ^ 32

/-- The tag ids of the index records of a package file in the order of the
file, for a descriptor at position `start`: the signature records' wire tags
lowered by 743 in `uint32_t` arithmetic, then the main records' wire tags. The
main header follows the signature records and the padded signature data. -/
def wire_tags (file : List Nat) (start : Nat) : List Nat :=
  let n1 := wire32 file (start + 96 + 8)
  let d1 := wire32 file (start + 96 + 12)
  let main_header := start + 96 + 16 + 16 * n1 + pad_size_loop 7 d1
  let n2 := wire32 file (main_header + 8)
  (List.range n1).map (fun k => toUInt32 ((wire32 file (start + 96 + 16 + 16 * k) : Int) - 743))
    ++ (List.range n2).map (fun k => wire32 file (main_header + 16 + 16 * k))

/-- The index is sorted ascending by tag id, the tag read as a signed 32-bit
integer. -/
def sorted_by_tag (tags : List rpm_index) : Prop :=
  tags.Pairwise (fun a b => toInt32 a.tag ≤ toInt32 b.tag)

instance (tags : List rpm_index) : Decidable (sorted_by_tag tags) := by
  unfold sorted_by_tag
  infer_instance

/-! ## Concrete inputs -/

/-- An index of three records, sorted by signed tag id: two `RPM_INT32_TYPE`
records with the tags -2147483648 and -2147483647 (signature wire tags lowered
by 743 reach them) and the `TAG_BASENAMES` record, a string array of three
names. -/
def far_index : globals :=
  { map := [0, 0, 1, 2, 97, 0, 98, 0, 99, 0]
    mytags := [⟨2147483648, 4, 0, 1⟩, ⟨2147483649, 4, 0, 1⟩, ⟨1117, 8, 4, 3⟩]
    mapsize := 10 }

/-- An index without a `TAG_FILEFLAGS` record: one file, `/a`, with directory
index 0. -/
def noflags_index : globals :=
  { map := [0, 0, 0, 0, 47, 0, 97, 0]
    mytags := [⟨1116, 4, 0, 1⟩, ⟨1117, 8, 6, 1⟩, ⟨1118, 8, 4, 1⟩]
    mapsize := 8 }

/-- An index whose `TAG_SIZE` record (tag 1009) points past the four mapped
bytes, and whose `TAG_NAME` record (tag 1000) holds an unterminated string. -/
def oob_index : globals :=
  { map := [65, 65, 65, 65]
    mytags := [⟨1000, 6, 2, 2⟩, ⟨1009, 4, 100, 1⟩]
    mapsize := 4 }

/-- An index with one string array of three strings, `a`, `bc` and `d`. -/
def strings_index : globals :=
  { map := [97, 0, 98, 99, 0, 100, 0]
    mytags := [⟨1117, 8, 0, 3⟩]
    mapsize := 7 }

/-- A package file: the 96-byte lead; a signature section with one record (wire
tag 1007, `RPM_INT32_TYPE`, offset 0, count 1) and 4 bytes of data padded to 8;
a main section with two records (wire tags 100 and 1000, both strings) and 4
bytes of data. Each section's records are in ascending tag order. -/
def sample_file : List Nat :=
  List.replicate 96 0
    ++ [0x8e, 0xad, 0xe8, 0x01, 0, 0, 0, 0, 0, 0, 0, 1, 0, 0, 0, 4]
    ++ [0, 0, 3, 239, 0, 0, 0, 4, 0, 0, 0, 0, 0, 0, 0, 1]
    ++ [0, 0, 1, 0, 0, 0, 0, 0]
    ++ [0x8e, 0xad, 0xe8, 0x01, 0, 0, 0, 0, 0, 0, 0, 2, 0, 0, 0, 4]
    ++ [0, 0, 0, 100, 0, 0, 0, 8, 0, 0, 0, 0, 0, 0, 0, 1]
    ++ [0, 0, 3, 232, 0, 0, 0, 6, 0, 0, 0, 2, 0, 0, 0, 1]
    ++ [67, 0, 97, 0]

/-- A package of eight regular files `/a` .. `/h` (mode 0100644, no flags) with
the sizes 5000, 10, 0, 4096, 1, 2, 3, 4 and the inode numbers 1, 2, 3, 42, 5, 6,
7, 42: the files 3 and 7 share inode 42. The mapping holds, in this order, the
directory indexes, the base names, the directory name `/`, the sizes, the
modes, the flags and the inodes. -/
def sample_pkg : globals :=
  { map :=
      [0, 0, 0, 0, 0, 0, 0, 0, 0, 0, 0, 0, 0, 0, 0, 0, 0, 0, 0, 0, 0, 0, 0, 0, 0, 0, 0, 0, 0,
       0, 0, 0, 97, 0, 98, 0, 99, 0, 100, 0, 101, 0, 102, 0, 103, 0, 104, 0, 47, 0, 0, 0, 19,
       136, 0, 0, 0, 10, 0, 0, 0, 0, 0, 0, 16, 0, 0, 0, 0, 1, 0, 0, 0, 2, 0, 0, 0, 3, 0, 0, 0,
       4, 129, 164, 129, 164, 129, 164, 129, 164, 129, 164, 129, 164, 129, 164, 129, 164, 0,
       0, 0, 0, 0, 0, 0, 0, 0, 0, 0, 0, 0, 0, 0, 0, 0, 0, 0, 0, 0, 0, 0, 0, 0, 0, 0, 0, 0, 0,
       0, 0, 0, 0, 0, 1, 0, 0, 0, 2, 0, 0, 0, 3, 0, 0, 0, 42, 0, 0, 0, 5, 0, 0, 0, 6, 0, 0, 0,
       7, 0, 0, 0, 42]
    mytags :=
      [⟨1028, 4, 50, 8⟩, ⟨1030, 3, 82, 8⟩, ⟨1037, 4, 98, 8⟩, ⟨1096, 4, 130, 8⟩,
       ⟨1116, 4, 0, 8⟩, ⟨1117, 8, 32, 8⟩, ⟨1118, 8, 48, 1⟩]
    mapsize := 162 }

/-- An environment for `sample_pkg`: install root `/r`, no prefix filter, run as
root, and a `concat_path_file` that puts one `/` between directory and name. -/
def sample_env : Env :=
  { install_root := [47, 114]
    only_prefix := none
    uid := 0
    concat_path_file := fun path filename =>
      if path.getLast? = some 47 then path ++ filename.dropWhile (fun b => b == 47)
      else path ++ [47] ++ filename.dropWhile (fun b => b == 47) }

/-- The package `sample_pkg` with the inode of file 7 changed from 42 to 8, so
that all eight inode numbers differ. -/
def sample_pkg_distinct : globals :=
  { sample_pkg with map := sample_pkg.map.set 161 8 }

/-- An index whose `TAG_SIZE` record (tag 1009) has the type code 5 of the
unsupported 64-bit integers, with one element at offset 0 of eight mapped bytes. -/
def int64_index : globals :=
  { map := [0, 0, 0, 0, 0, 0, 19, 136]
    mytags := [⟨1000, 6, 0, 1⟩, ⟨1009, 5, 0, 1⟩]
    mapsize := 8 }

/-- A package file of exactly 4096 bytes: the lead, the signature section and
the main section headers and records of `sample_file`, with a main data size of
3912 bytes, all zero. Its total store length is 4096. -/
def aligned_file : List Nat :=
  List.replicate 96 0
    ++ [0x8e, 0xad, 0xe8, 0x01, 0, 0, 0, 0, 0, 0, 0, 1, 0, 0, 0, 4]
    ++ [0, 0, 3, 239, 0, 0, 0, 4, 0, 0, 0, 0, 0, 0, 0, 1]
    ++ [0, 0, 1, 0, 0, 0, 0, 0]
    ++ [0x8e, 0xad, 0xe8, 0x01, 0, 0, 0, 0, 0, 0, 0, 2, 0, 0, 15, 72]
    ++ [0, 0, 0, 100, 0, 0, 0, 8, 0, 0, 0, 0, 0, 0, 0, 1]
    ++ [0, 0, 3, 232, 0, 0, 0, 6, 0, 0, 0, 2, 0, 0, 0, 1]
    ++ List.replicate 3912 0

/-- A package of three files in the directory `/`: file 0 is the symbolic link
`l` to `a` (mode 0120777, size 1), files 1 and 2 are the regular files `a` and
`b` (mode 0100644) of sizes 10 and 20. The inode numbers are 5, 5 and 6: the
link and file 1 carry the same number, the two regular files differ. The
mapping holds, in this order, the directory indexes, the base names, the
directory name, the sizes, the modes, the flags, the inodes and the link
targets. -/
def symlink_pkg : globals :=
  { map :=
      [0, 0, 0, 0, 0, 0, 0, 0, 0, 0, 0, 0, 108, 0, 97, 0, 98, 0, 47, 0, 0, 0, 0, 1, 0, 0, 0,
       10, 0, 0, 0, 20, 161, 255, 129, 164, 129, 164, 0, 0, 0, 0, 0, 0, 0, 0, 0, 0, 0, 0, 0,
       0, 0, 5, 0, 0, 0, 5, 0, 0, 0, 6, 97, 0, 0, 0]
    mytags :=
      [⟨1028, 4, 20, 3⟩, ⟨1030, 3, 32, 3⟩, ⟨1036, 8, 62, 3⟩, ⟨1037, 4, 38, 3⟩,
       ⟨1096, 4, 50, 3⟩, ⟨1116, 4, 0, 3⟩, ⟨1117, 8, 12, 3⟩, ⟨1118, 8, 18, 1⟩]
    mapsize := 66 }

/-- A package file with the lead, the headers and the index records of
`sample_file` and a declared main data size of 4294963016 bytes, so that its
total store length is 4294963200 = 0xfffff000; the data itself is absent. -/
def wrap_file : List Nat :=
  List.replicate 96 0
    ++ [0x8e, 0xad, 0xe8, 0x01, 0, 0, 0, 0, 0, 0, 0, 1, 0, 0, 0, 4]
    ++ [0, 0, 3, 239, 0, 0, 0, 4, 0, 0, 0, 0, 0, 0, 0, 1]
    ++ [0, 0, 1, 0, 0, 0, 0, 0]
    ++ [0x8e, 0xad, 0xe8, 0x01, 0, 0, 0, 0, 0, 0, 0, 2, 255, 255, 239, 72]
    ++ [0, 0, 0, 100, 0, 0, 0, 8, 0, 0, 0, 0, 0, 0, 0, 1]
    ++ [0, 0, 3, 232, 0, 0, 0, 6, 0, 0, 0, 2, 0, 0, 0, 1]

/-! # Theorems -/

/-! ## Machine integers and the library search -/

theorem toUInt32_of_nonneg (i : Int) (h0 : 0 ≤ i) (h : i < 2 ^ 32) : toUInt32 i = i.toNat := by
  unfold toUInt32
  rw [Int.emod_eq_of_lt h0 h]

theorem toUInt32_natCast (i : Nat) (h : i < 2 ^ 32) : toUInt32 (i : Int) = i := by
  rw [toUInt32_of_nonneg _ (Int.natCast_nonneg i) (by exact_mod_cast h)]
  simp

theorem toUInt32_lt (i : Int) : toUInt32 i < 2 ^ 32 := by
  unfold toUInt32
  have h1 : i % 2 ^ 32 < 2 ^ 32 := Int.emod_lt_of_pos _ (by norm_num)
  have h0 : 0 ≤ i % 2 ^ 32 := Int.emod_nonneg _ (by norm_num)
  omega

theorem bsearch_loop_sound {α : Type} (compar : α → Int) (base : List α) :
    ∀ (fuel l u : Nat) (p : α), bsearch_loop compar base fuel l u = some p →
      ∃ idx, l ≤ idx ∧ idx < u ∧ base[idx]? = some p ∧ compar p = 0 := by
  intro fuel
  induction fuel with
  | zero => intro l u p h; simp [bsearch_loop] at h
  | succ fuel ih =>
    intro l u p h
    unfold bsearch_loop at h
    split at h
    · simp only at h
      split at h
      · simp at h
      · rename_i q hq
        split at h
        · obtain ⟨idx, h1, h2, h3⟩ := ih _ _ _ h
          exact ⟨idx, h1, by omega, h3⟩
        · split at h
          · obtain ⟨idx, h1, h2, h3⟩ := ih _ _ _ h
            exact ⟨idx, by omega, h2, h3⟩
          · simp only [Option.some.injEq] at h
            subst h
            exact ⟨(l + u) / 2, by omega, by omega, hq, by omega⟩
    · simp at h

theorem bsearch_sound {α : Type} (compar : α → Int) (base : List α) (nmemb : Nat) (p : α)
    (h : bsearch compar base nmemb = some p) :
    ∃ idx, idx < nmemb ∧ base[idx]? = some p ∧ compar p = 0 := by
  obtain ⟨idx, _, h2, h3⟩ := bsearch_loop_sound compar base _ _ _ p h
  exact ⟨idx, h2, h3⟩

theorem bsearch_loop_complete {α : Type} (compar : α → Int) (base : List α) (n : Nat)
    (hn : n ≤ base.length)
    (hlt : ∀ (i j : Nat) (hi : i < n) (hj : j < n), i ≤ j →
      compar (base.get ⟨i, by omega⟩) < 0 → compar (base.get ⟨j, by omega⟩) < 0)
    (hgt : ∀ (i j : Nat) (hi : i < n) (hj : j < n), i ≤ j →
      compar (base.get ⟨j, by omega⟩) > 0 → compar (base.get ⟨i, by omega⟩) > 0)
    (k : Nat) (hk : k < n) (hk0 : compar (base.get ⟨k, by omega⟩) = 0) :
    ∀ (fuel l u : Nat), u - l ≤ fuel → l ≤ k → k < u → u ≤ n →
      ∃ p, bsearch_loop compar base fuel l u = some p ∧ compar p = 0 := by
  intro fuel
  induction fuel with
  | zero => intro l u h1 h2 h3 h4; omega
  | succ fuel ih =>
    intro l u h1 h2 h3 h4
    unfold bsearch_loop
    have hlu : l < u := by omega
    have hidx : (l + u) / 2 < base.length := by omega
    have hidxn : (l + u) / 2 < n := by omega
    simp only [hlu, if_true, List.getElem?_eq_getElem hidx]
    by_cases hc : compar base[(l + u) / 2] < 0
    · simp only [hc, if_true]
      have hkidx : k < (l + u) / 2 := by
        by_contra hcon
        have := hlt ((l + u) / 2) k hidxn hk (by omega) hc
        simp only [List.get_eq_getElem] at this hk0
        omega
      exact ih _ _ (by omega) h2 hkidx (by omega)
    · simp only [hc, if_false]
      by_cases hc2 : compar base[(l + u) / 2] > 0
      · simp only [hc2, if_true]
        have hkidx : (l + u) / 2 < k := by
          by_contra hcon
          have := hgt k ((l + u) / 2) hk hidxn (by omega) hc2
          simp only [List.get_eq_getElem] at this hk0
          omega
        exact ih _ _ (by omega) (by omega) h3 h4
      · simp only [hc2, if_false]
        exact ⟨_, rfl, by omega⟩

theorem bsearch_complete {α : Type} (compar : α → Int) (base : List α) (n : Nat)
    (hn : n ≤ base.length)
    (hlt : ∀ (i j : Nat) (hi : i < n) (hj : j < n), i ≤ j →
      compar (base.get ⟨i, by omega⟩) < 0 → compar (base.get ⟨j, by omega⟩) < 0)
    (hgt : ∀ (i j : Nat) (hi : i < n) (hj : j < n), i ≤ j →
      compar (base.get ⟨j, by omega⟩) > 0 → compar (base.get ⟨i, by omega⟩) > 0)
    (k : Nat) (hk : k < n) (hk0 : compar (base.get ⟨k, by omega⟩) = 0) :
    ∃ p, bsearch compar base n = some p ∧ compar p = 0 :=
  bsearch_loop_complete compar base n hn hlt hgt k hk hk0 n 0 n (by omega) (by omega) hk (le_refl _)

theorem toInt32_toUInt32 (i : Int) (h0 : -2 ^ 31 ≤ i) (h1 : i < 2 ^ 31) : toInt32 (toUInt32 i) = i := by
  unfold toInt32 toUInt32
  split <;> omega

theorem toInt32_bounds (n : Nat) : -2 ^ 31 ≤ toInt32 n ∧ toInt32 n < 2 ^ 31 := by
  unfold toInt32
  split <;> omega

theorem bsearch_rpmtag_eq (key : Int) (item : rpm_index) (hk0 : -2 ^ 31 ≤ key) (hk1 : key < 2 ^ 31)
    (h0 : -2 ^ 31 ≤ key - toInt32 item.tag) (h1 : key - toInt32 item.tag < 2 ^ 31) :
    bsearch_rpmtag key item = key - toInt32 item.tag := by
  unfold bsearch_rpmtag toInt32 toUInt32 at *
  split at h0 <;> split <;> omega

theorem bsearch_rpmtag_eq_zero (key : Int) (item : rpm_index) (hk0 : -2 ^ 31 ≤ key)
    (hk1 : key < 2 ^ 31) : bsearch_rpmtag key item = 0 ↔ key = toInt32 item.tag := by
  unfold bsearch_rpmtag toInt32 toUInt32 at *
  split <;> split <;> omega

theorem find_tag_absent (G : globals) (tag : Int) (hk0 : -2 ^ 31 ≤ tag) (hk1 : tag < 2 ^ 31)
    (h : ∀ e ∈ G.mytags, toInt32 e.tag ≠ tag) : find_tag G tag = none := by
  cases hf : find_tag G tag with
  | none => rfl
  | some p =>
    obtain ⟨idx, _, hidx, hz⟩ := bsearch_sound _ _ _ _ hf
    have hp : p ∈ G.mytags := List.getElem?_mem hidx
    exact absurd ((bsearch_rpmtag_eq_zero tag p hk0 hk1).1 hz).symm (h p hp)

theorem find_tag_of_sorted_near (G : globals)
    (hs : G.mytags.Pairwise (fun a b => toInt32 a.tag < toInt32 b.tag))
    (hnear : ∀ a ∈ G.mytags, ∀ b ∈ G.mytags, toInt32 a.tag - toInt32 b.tag < 2 ^ 31)
    (e : rpm_index) (he : e ∈ G.mytags) : find_tag G (toInt32 e.tag) = some e := by
  obtain ⟨k, hk, hke⟩ := List.getElem_of_mem he
  have hb := toInt32_bounds e.tag
  have hcmp : ∀ (i : Nat) (hi : i < G.mytags.length),
      bsearch_rpmtag (toInt32 e.tag) G.mytags[i] = toInt32 e.tag - toInt32 G.mytags[i].tag := by
    intro i hi
    have hm : G.mytags[i] ∈ G.mytags := List.getElem_mem hi
    have h1 := hnear _ he _ hm
    have h2 := hnear _ hm _ he
    exact bsearch_rpmtag_eq _ _ hb.1 hb.2 (by omega) h1
  have hmono : ∀ (i j : Nat) (hi : i < G.mytags.length) (hj : j < G.mytags.length), i ≤ j →
      toInt32 G.mytags[i].tag ≤ toInt32 G.mytags[j].tag := by
    intro i j hi hj hij
    rcases Nat.lt_or_eq_of_le hij with h | h
    · exact le_of_lt (List.pairwise_iff_getElem.1 hs i j hi hj h)
    · subst h; exact le_refl _
  obtain ⟨p, hp, hz⟩ := bsearch_complete (bsearch_rpmtag (toInt32 e.tag)) G.mytags G.mytags.length
    (le_refl _)
    (by
      intro i j hi hj hij h
      simp only [List.get_eq_getElem] at h ⊢
      rw [hcmp i hi] at h
      rw [hcmp j hj]
      have := hmono i j hi hj hij
      omega)
    (by
      intro i j hi hj hij h
      simp only [List.get_eq_getElem] at h ⊢
      rw [hcmp j hj] at h
      rw [hcmp i hi]
      have := hmono i j hi hj hij
      omega)
    k hk
    (by
      simp only [List.get_eq_getElem]
      rw [hcmp k hk, hke]
      omega)
  unfold find_tag globals.tagcount
  rw [hp]
  obtain ⟨idx, hidx, hget, _⟩ := bsearch_sound _ _ _ _ hp
  have hidx2 : idx < G.mytags.length := hidx
  rw [List.getElem?_eq_getElem hidx2] at hget
  simp only [Option.some.injEq] at hget
  have hz2 := (bsearch_rpmtag_eq_zero _ p hb.1 hb.2).1 hz
  rw [← hget] at hz2
  have hik : idx = k := by
    rcases Nat.lt_trichotomy idx k with h | h | h
    · have := List.pairwise_iff_getElem.1 hs idx k hidx2 hk h
      rw [hke] at this
      omega
    · exact h
    · have := List.pairwise_iff_getElem.1 hs k idx hk hidx2 h
      rw [hke] at this
      omega
  subst hik
  rw [← hget, hke]

/-! ## C1: lookup in a sorted index -/

/-- C1: the index `far_index` is sorted ascending by signed tag id with distinct
tags and holds the `TAG_BASENAMES` entry with count 3, yet
`rpm_getcount(TAG_BASENAMES)` returns 0: the comparison `*tag - tmp->tag` wraps
for tags that lie 2^31 or more apart and sends the search to the wrong half. -/
theorem rpm_getcount_far_tag :
    far_index.mytags.Pairwise (fun a b => toInt32 a.tag < toInt32 b.tag) ∧
    (⟨1117, 8, 4, 3⟩ : rpm_index) ∈ far_index.mytags ∧
    rpm_getcount far_index TAG_BASENAMES = 0 := by
  decide

/-- The lookup finds every entry of a sorted index with distinct tags whose tags
lie less than 2^31 apart. -/
theorem rpm_getcount_of_sorted_near (G : globals)
    (hs : G.mytags.Pairwise (fun a b => toInt32 a.tag < toInt32 b.tag))
    (hnear : ∀ a ∈ G.mytags, ∀ b ∈ G.mytags, toInt32 a.tag - toInt32 b.tag < 2 ^ 31)
    (e : rpm_index) (he : e ∈ G.mytags) :
    rpm_getcount G (toInt32 e.tag) = toInt32 e.count := by
  unfold rpm_getcount
  rw [find_tag_of_sorted_near G hs hnear e he]

/-- A tag id that occurs in no entry has count 0, whatever the order of the index. -/
theorem rpm_getcount_absent (G : globals) (tag : Int) (hk0 : -2 ^ 31 ≤ tag) (hk1 : tag < 2 ^ 31)
    (h : ∀ e ∈ G.mytags, toInt32 e.tag ≠ tag) : rpm_getcount G tag = 0 := by
  unfold rpm_getcount
  rw [find_tag_absent G tag hk0 hk1 h]

/-! ## C2: an index at or past the count -/

/-- C2: for an index `i` (a C `int`) at or above the count of the tag, 0 for an
absent tag, `rpm_getstr` returns `NULL` and `rpm_getint` returns -1, whatever the
type of the entry, and neither reads a byte of the mapping. -/
theorem lookup_past_count (G : globals) (tag i : Int) (hi : (tag_count G tag : Int) ≤ i)
    (hint : i < 2 ^ 31) :
    rpm_getstr G tag i = ⟨none, []⟩ ∧ rpm_getint G tag i = ⟨-1, []⟩ := by
  have h0 : 0 ≤ i := le_trans (Int.natCast_nonneg _) hi
  have hu : toUInt32 i = i.toNat := toUInt32_of_nonneg i h0 (by omega)
  unfold tag_count at hi
  unfold rpm_getstr rpm_getint
  cases hf : find_tag G tag with
  | none => exact ⟨rfl, rfl⟩
  | some found =>
    rw [hf] at hi
    simp only at hi
    have hge : toUInt32 i ≥ found.count := by omega
    simp only [hge, if_true, and_self]

/-- Witness of `lookup_past_count`: index 1 of the one-element tag 1009. -/
theorem lookup_past_count_witness :
    rpm_getstr oob_index 1009 1 = ⟨none, []⟩ ∧ rpm_getint oob_index 1009 1 = ⟨-1, []⟩ :=
  lookup_past_count oob_index 1009 1 (by decide) (by decide)

/-! ## C4: integer decoding -/

theorem peek_lt (G : globals) (addr : Int) : peek G addr < 256 := by
  unfold peek mapped_bytes
  split
  · rw [List.getD_eq_getElem?_getD]
    cases h : (List.map (fun b => b % 256) G.map)[addr.toNat]? with
    | none => simp
    | some b =>
      obtain ⟨a, _, ha⟩ := List.mem_map.1 (List.getElem?_mem h)
      simp only [Option.getD_some]
      omega
  · omega

theorem ntohl_host32 (b0 b1 b2 b3 : Nat) (h0 : b0 < 256) (h1 : b1 < 256) (h2 : b2 < 256)
    (h3 : b3 < 256) :
    ntohl (host32 b0 b1 b2 b3) = b0 * 2 ^ 24 + b1 * 2 ^ 16 + b2 * 2 ^ 8 + b3 := by
  unfold ntohl host32
  omega

theorem ntohs_host16 (b0 b1 : Nat) (h0 : b0 < 256) (h1 : b1 < 256) :
    ntohs (host16 b0 b1) = b0 * 2 ^ 8 + b1 := by
  unfold ntohs host16
  omega

/-- C4: for an entry found by the lookup and an index `i` below its count,
`rpm_getint` reads the element at byte position `offset + i*width` of the
mapping and nothing else: for `RPM_INT32_TYPE` four bytes as a big-endian 32-bit
integer (returned as `int`), for `RPM_INT16_TYPE` two bytes as a big-endian
16-bit integer, for `RPM_INT8_TYPE` the single byte (as `int8_t`). -/
theorem rpm_getint_decodes (G : globals) (tag : Int) (found : rpm_index) (i : Nat)
    (hf : find_tag G tag = some found) (hi : i < found.count) (hint : i < 2 ^ 31) :
    (found.type = RPM_INT32_TYPE →
      rpm_getint G tag i =
        ⟨toInt32 (be32 G (found.offset + i * 4)),
          (List.range 4).map (fun j => ((found.offset + i * 4 + j : Nat) : Int))⟩) ∧
    (found.type = RPM_INT16_TYPE →
      rpm_getint G tag i =
        ⟨(be16 G (found.offset + i * 2) : Nat),
          (List.range 2).map (fun j => ((found.offset + i * 2 + j : Nat) : Int))⟩) ∧
    (found.type = RPM_INT8_TYPE →
      rpm_getint G tag i =
        ⟨toInt8 (peek G (found.offset + i)),
          (List.range 1).map (fun j => ((found.offset + i + j : Nat) : Int))⟩) := by
  have hu : toUInt32 (i : Int) = i := toUInt32_natCast i (by omega)
  have hlt : ¬ toUInt32 (i : Int) ≥ found.count := by omega
  refine ⟨?_, ?_, ?_⟩
  · intro ht
    unfold rpm_getint
    simp only [hf, hlt, if_false, ht, if_true, be32]
    rw [ntohl_host32 _ _ _ _ (peek_lt _ _) (peek_lt _ _) (peek_lt _ _) (peek_lt _ _)]
    simp [List.range_succ, add_assoc]
  · intro ht
    unfold rpm_getint
    have h32 : ¬ RPM_INT16_TYPE = RPM_INT32_TYPE := by decide
    simp only [hf, hlt, if_false, ht, if_true, be16, h32]
    rw [ntohs_host16 _ _ (peek_lt _ _) (peek_lt _ _)]
    simp [List.range_succ, add_assoc]
  · intro ht
    unfold rpm_getint
    have h32 : ¬ RPM_INT8_TYPE = RPM_INT32_TYPE := by decide
    have h16 : ¬ RPM_INT8_TYPE = RPM_INT16_TYPE := by decide
    simp only [hf, hlt, if_false, ht, if_true, h32, h16]
    simp [List.range_succ]

/-- Witness of `rpm_getint_decodes`: element 0 of the file sizes of
`sample_pkg`, the bytes `00 00 13 88` at offset 50. -/
theorem rpm_getint_decodes_witness :
    rpm_getint sample_pkg TAG_FILESIZES (0 : Nat) = ⟨5000, [50, 51, 52, 53]⟩ :=
  ((rpm_getint_decodes sample_pkg TAG_FILESIZES ⟨1028, 4, 50, 8⟩ 0 (by decide) (by decide)
    (by decide)).1 rfl).trans (by decide)

/-! ## C3: string access -/

theorem strlen_bytes_append (s t : List Nat) (hs : 0 ∉ s) :
    strlen_bytes (s ++ 0 :: t) = s.length := by
  induction s with
  | nil => simp [strlen_bytes]
  | cons b bs ih =>
    have hb : b ≠ 0 := fun h => hs (by simp [h])
    have hbs : 0 ∉ bs := fun h => hs (List.mem_cons_of_mem _ h)
    simp [strlen_bytes, hb, ih hbs]

theorem peek_natCast (G : globals) (k : Nat) : peek G (k : Int) = (mapped_bytes G).getD k 0 := by
  unfold peek
  simp

theorem strlen_natCast (G : globals) (k : Nat) :
    strlen G (k : Int) = strlen_bytes ((mapped_bytes G).drop k) := by
  unfold strlen
  simp

theorem strlen_of_drop (G : globals) (p : Nat) (s t : List Nat) (hs : 0 ∉ s)
    (hd : (mapped_bytes G).drop p = s ++ 0 :: t) : strlen G (p : Int) = s.length := by
  rw [strlen_natCast, hd, strlen_bytes_append s t hs]

theorem cstr_of_drop (G : globals) (p : Nat) (s t : List Nat) (hs : 0 ∉ s)
    (hd : (mapped_bytes G).drop p = s ++ 0 :: t) : cstr G (p : Int) = s := by
  unfold cstr
  rw [strlen_of_drop G p s t hs hd]
  apply List.ext_getElem
  · simp
  · intro j h1 h2
    simp only [List.getElem_map, List.getElem_range]
    have : ((p : Int) + (j : Int)) = ((p + j : Nat) : Int) := by push_cast; rfl
    rw [this, peek_natCast, List.getD_eq_getElem?_getD, ← List.getElem?_drop, hd,
      List.getElem?_append_left h2, List.getElem?_eq_getElem h2]
    rfl

theorem rpm_getstr_loop_strs (G : globals) :
    ∀ (strs : List (List Nat)) (p : Nat) (reads : List Int), (∀ s ∈ strs, 0 ∉ s) →
      (strs.map (fun s => s ++ [0])).flatten <+: (mapped_bytes G).drop p →
      rpm_getstr_loop G strs.length (p : Int) reads =
        (((p + (strs.map (fun s => s.length + 1)).sum : Nat) : Int),
          reads ++ (List.range (strs.map (fun s => s.length + 1)).sum).map
            (fun j => ((p + j : Nat) : Int))) := by
  intro strs
  induction strs with
  | nil => intro p reads _ _; simp [rpm_getstr_loop]
  | cons s rest ih =>
    intro p reads hz hpre
    obtain ⟨tail, htail⟩ := hpre
    have hs : 0 ∉ s := hz s (List.mem_cons_self _ _)
    have hd : (mapped_bytes G).drop p
        = s ++ 0 :: ((rest.map (fun s => s ++ [0])).flatten ++ tail) := by
      rw [← htail]; simp
    have hlen := strlen_of_drop G p s _ hs hd
    have hd2 : (mapped_bytes G).drop (p + (s.length + 1))
        = (rest.map (fun s => s ++ [0])).flatten ++ tail := by
      rw [← List.drop_drop, hd]
      simp
    have hpre2 : (rest.map (fun s => s ++ [0])).flatten <+: (mapped_bytes G).drop (p + (s.length + 1)) :=
      ⟨tail, hd2.symm⟩
    have ih2 := ih (p + (s.length + 1))
      (reads ++ (List.range (s.length + 1)).map (fun j => ((p + j : Nat) : Int)))
      (fun t ht => hz t (List.mem_cons_of_mem _ ht)) hpre2
    simp only [List.length_cons, rpm_getstr_loop, hlen]
    have e1 : ((p : Int) + (s.length : Int) + 1) = ((p + (s.length + 1) : Nat) : Int) := by
      push_cast; ring
    have e2 : (List.range (s.length + 1)).map (fun (j : Nat) => (p : Int) + (j : Int))
        = (List.range (s.length + 1)).map (fun j => ((p + j : Nat) : Int)) := by
      apply List.map_congr_left
      intro j _
      push_cast; rfl
    rw [e1, e2, ih2]
    simp only [List.map_cons, List.sum_cons, List.append_assoc, Prod.mk.injEq]
    refine ⟨by push_cast; ring, ?_⟩
    congr 1
    rw [List.range_add (s.length + 1), List.map_append, List.map_map]
    congr 1
    apply List.map_congr_left
    intro j _
    simp only [Function.comp]
    push_cast; ring

theorem drop_at_string (G : globals) :
    ∀ (i : Nat) (strs : List (List Nat)) (off : Nat) (s : List Nat),
      (strs.map (fun s => s ++ [0])).flatten <+: (mapped_bytes G).drop off →
      strs[i]? = some s →
      ∃ t, (mapped_bytes G).drop (off + ((strs.take i).map (fun s => s.length + 1)).sum)
        = s ++ 0 :: t := by
  intro i
  induction i with
  | zero =>
    intro strs off s hpre hs
    cases strs with
    | nil => simp at hs
    | cons s0 rest =>
      simp only [List.getElem?_cons_zero, Option.some.injEq] at hs
      subst hs
      obtain ⟨tail, htail⟩ := hpre
      refine ⟨(rest.map (fun s => s ++ [0])).flatten ++ tail, ?_⟩
      simp only [List.take_zero, List.map_nil, List.sum_nil, Nat.add_zero]
      rw [← htail]
      simp
  | succ i ih =>
    intro strs off s hpre hs
    cases strs with
    | nil => simp at hs
    | cons s0 rest =>
      simp only [List.getElem?_cons_succ] at hs
      obtain ⟨tail, htail⟩ := hpre
      have hd2 : (mapped_bytes G).drop (off + (s0.length + 1))
          = (rest.map (fun s => s ++ [0])).flatten ++ tail := by
        rw [← List.drop_drop, ← htail]
        simp
      obtain ⟨t, ht⟩ := ih rest (off + (s0.length + 1)) s ⟨tail, hd2.symm⟩ hs
      refine ⟨t, ?_⟩
      rw [← ht]
      simp only [List.take_succ_cons, List.map_cons, List.sum_cons]
      congr 1
      omega

/-- C3: for an entry of string kind found by the lookup and an index `i` below
its count, when the mapped bytes from the entry's offset begin with the strings
`strs`, each followed by its NUL, and `strs` has more than `i` members,
`rpm_getstr` returns the pointer just past the first `i` terminators and the C
string there is `strs[i]`; and `rpm_getstr(tag, 0)` is the entry's offset, where
the C string is `strs[0]`, whatever the count. -/
theorem rpm_getstr_ith (G : globals) (tag : Int) (found : rpm_index) (i : Nat)
    (strs : List (List Nat)) (hf : find_tag G tag = some found)
    (ht : found.type = RPM_STRING_TYPE ∨ found.type = RPM_I18NSTRING_TYPE
      ∨ found.type = RPM_STRING_ARRAY_TYPE)
    (hi : i < found.count) (hint : i < 2 ^ 31) (hz : ∀ s ∈ strs, 0 ∉ s)
    (hmap : (strs.map (fun s => s ++ [0])).flatten <+: (mapped_bytes G).drop found.offset)
    (hlen : i < strs.length) :
    (rpm_getstr G tag i).val
      = some ((found.offset + ((strs.take i).map (fun s => s.length + 1)).sum : Nat) : Int) ∧
    strs[i]? = some
      (cstr G ((found.offset + ((strs.take i).map (fun s => s.length + 1)).sum : Nat) : Int)) ∧
    (rpm_getstr G tag 0).val = some (found.offset : Int) ∧
    strs[0]? = some (cstr G (found.offset : Int)) := by
  have hu : toUInt32 (i : Int) = i := toUInt32_natCast i (by omega)
  have hlt : ¬ toUInt32 (i : Int) ≥ found.count := by omega
  have hlt0 : ¬ toUInt32 (0 : Int) ≥ found.count := by
    have : toUInt32 (0 : Int) = 0 := by decide
    omega
  have hzt : ∀ s ∈ strs.take i, 0 ∉ s := fun s hs => hz s (List.mem_of_mem_take hs)
  have hpre : ((strs.take i).map (fun s => s ++ [0])).flatten
      <+: (mapped_bytes G).drop found.offset := by
    refine List.IsPrefix.trans ?_ hmap
    obtain ⟨r, hr⟩ := List.take_prefix i strs
    refine ⟨(r.map (fun s => s ++ [0])).flatten, ?_⟩
    rw [← List.flatten_append, ← List.map_append, hr]
  have hloop := rpm_getstr_loop_strs G (strs.take i) found.offset [] hzt hpre
  have hli : (strs.take i).length = i := by
    rw [List.length_take]; omega
  rw [hli] at hloop
  have hsi : strs[i]? = some strs[i] := List.getElem?_eq_getElem hlen
  have h0len : 0 < strs.length := by omega
  have hs0 : strs[0]? = some strs[0] := List.getElem?_eq_getElem h0len
  obtain ⟨t, hdrop⟩ := drop_at_string G i strs found.offset _ hmap hsi
  obtain ⟨t0, hdrop0⟩ := drop_at_string G 0 strs found.offset _ hmap hs0
  simp only [List.take_zero, List.map_nil, List.sum_nil, Nat.add_zero] at hdrop0
  refine ⟨?_, ?_, ?_, ?_⟩
  · unfold rpm_getstr
    simp only [hf, hlt, if_false, ht, if_true, Int.toNat_ofNat, hloop]
  · rw [cstr_of_drop G _ _ t (hz _ (List.getElem_mem hlen)) hdrop, hsi]
  · unfold rpm_getstr
    simp only [hf, hlt0, if_false, ht, if_true, Int.toNat_zero, rpm_getstr_loop]
  · rw [cstr_of_drop G _ _ t0 (hz _ (List.getElem_mem h0len)) hdrop0, hs0]

/-- Witness of `rpm_getstr_ith`: string 1 of the three strings of `strings_index`,
found at offset 2. -/
theorem rpm_getstr_ith_witness :
    (rpm_getstr strings_index 1117 (1 : Nat)).val = some 2 ∧
    cstr strings_index 2 = [98, 99] :=
  have h := rpm_getstr_ith strings_index 1117 ⟨1117, 8, 0, 3⟩ 1 [[97], [98, 99], [100]]
    (by decide) (by decide) (by decide) (by decide) (by decide) (by decide) (by decide)
  ⟨h.1.trans (by decide), by decide⟩

/-! ## C7: the accessors and the length of the mapping -/

/-- C7, counterexample: in `oob_index`, whose mapping has four bytes, the lookup
`rpm_getint(1009, 0)` of an element below the count returns a value after
reading the addresses 100..103, outside `[0, mapsize)`. -/
theorem rpm_getint_reads_outside :
    (0 : Int) < tag_count oob_index 1009 ∧
    (rpm_getint oob_index 1009 0).val = 0 ∧
    ¬ (∀ a ∈ (rpm_getint oob_index 1009 0).reads, 0 ≤ a ∧ a < (oob_index.mapsize : Int)) := by
  decide

theorem strlen_bytes_spec : ∀ (l : List Nat),
    (∀ j, j < strlen_bytes l → l.getD j 0 ≠ 0) ∧ l.getD (strlen_bytes l) 0 = 0 := by
  intro l
  induction l with
  | nil => simp [strlen_bytes]
  | cons b bs ih =>
    unfold strlen_bytes
    by_cases hb : b = 0
    · simp [hb]
    · simp only [hb, if_false]
      refine ⟨?_, by simpa using ih.2⟩
      intro j hj
      cases j with
      | zero => simpa using hb
      | succ j => simpa using ih.1 j (by omega)

theorem peek_drop (G : globals) (p j : Nat) :
    peek G ((p + j : Nat) : Int) = ((mapped_bytes G).drop p).getD j 0 := by
  rw [peek_natCast, List.getD_eq_getElem?_getD, List.getD_eq_getElem?_getD, List.getElem?_drop]

theorem strlen_spec (G : globals) (p : Nat) :
    (∀ j, j < strlen G (p : Int) → peek G ((p + j : Nat) : Int) ≠ 0) ∧
      peek G ((p + strlen G (p : Int) : Nat) : Int) = 0 := by
  rw [strlen_natCast]
  have h := strlen_bytes_spec ((mapped_bytes G).drop p)
  refine ⟨fun j hj => ?_, ?_⟩
  · rw [peek_drop]; exact h.1 j hj
  · rw [peek_drop]; exact h.2

theorem count_zero_string (G : globals) (p : Nat) :
    ((List.range (strlen G (p : Int) + 1)).filter
      (fun j => decide (peek G ((p + j : Nat) : Int) = 0))).length = 1 := by
  obtain ⟨h1, h2⟩ := strlen_spec G p
  rw [List.range_succ, List.filter_append]
  have hnil : (List.range (strlen G (p : Int))).filter
      (fun j => decide (peek G ((p + j : Nat) : Int) = 0)) = [] := by
    rw [List.filter_eq_nil_iff]
    intro j hj
    simpa using h1 j (List.mem_range.1 hj)
  rw [hnil, List.nil_append, List.filter_cons_of_pos (by simpa using h2)]
  rfl

/-- The scan of `rpm_getstr` from any address of any mapping: after `n` rounds
the pointer has moved over a run of bytes that were all read, the run holds
exactly `n` NUL bytes, and it ends with one. -/
theorem rpm_getstr_loop_scan (G : globals) :
    ∀ (n p : Nat) (reads : List Int), ∃ len,
      rpm_getstr_loop G n (p : Int) reads
        = (((p + len : Nat) : Int),
            reads ++ (List.range len).map (fun j => ((p + j : Nat) : Int))) ∧
      ((List.range len).filter (fun j => decide (peek G ((p + j : Nat) : Int) = 0))).length = n ∧
      (0 < len → peek G ((p + (len - 1) : Nat) : Int) = 0) := by
  intro n
  induction n with
  | zero =>
    intro p reads
    exact ⟨0, by simp [rpm_getstr_loop], rfl, fun h => absurd h (by omega)⟩
  | succ n ih =>
    intro p reads
    obtain ⟨len, hloop, hcount, hlast⟩ := ih (p + (strlen G (p : Int) + 1))
      (reads ++ (List.range (strlen G (p : Int) + 1)).map (fun j => ((p + j : Nat) : Int)))
    refine ⟨strlen G (p : Int) + 1 + len, ?_, ?_, ?_⟩
    · simp only [rpm_getstr_loop]
      have e1 : ((p : Int) + (strlen G (p : Int) : Int) + 1)
          = ((p + (strlen G (p : Int) + 1) : Nat) : Int) := by
        push_cast; ring
      have e2 : (List.range (strlen G (p : Int) + 1)).map (fun (j : Nat) => (p : Int) + (j : Int))
          = (List.range (strlen G (p : Int) + 1)).map (fun j => ((p + j : Nat) : Int)) := by
        apply List.map_congr_left
        intro j _
        push_cast; rfl
      rw [e1, e2, hloop]
      simp only [List.append_assoc, Prod.mk.injEq]
      refine ⟨by push_cast; ring, ?_⟩
      refine congrArg (fun l => reads ++ l) ?_
      rw [List.range_add (strlen G (p : Int) + 1), List.map_append, List.map_map]
      refine congrArg (fun l => _ ++ l) ?_
      apply List.map_congr_left
      intro j _
      simp only [Function.comp]
      push_cast; ring
    · rw [List.range_add (strlen G (p : Int) + 1), List.filter_append, List.length_append,
        count_zero_string, List.filter_map, List.length_map]
      have : (List.range len).filter
          ((fun j => decide (peek G ((p + j : Nat) : Int) = 0)) ∘ fun x => strlen G (p : Int) + 1 + x)
          = (List.range len).filter
            (fun j => decide (peek G ((p + (strlen G (p : Int) + 1) + j : Nat) : Int) = 0)) := by
        apply List.filter_congr
        intro j _
        simp only [Function.comp, Nat.add_assoc]
      rw [this, hcount]
      omega
    · intro _
      by_cases hl : 0 < len
      · have := hlast hl
        have e : p + (strlen G (p : Int) + 1 + len - 1) = p + (strlen G (p : Int) + 1) + (len - 1) := by
          omega
        rw [e]
        exact this
      · have hl0 : len = 0 := by omega
        subst hl0
        have e : p + (strlen G (p : Int) + 1 + 0 - 1) = p + strlen G (p : Int) := by omega
        rw [e]
        exact (strlen_spec G p).2


/-- The scan of `rpm_getstr` does not look at `G.mapsize`. -/
theorem rpm_getstr_loop_ignores_mapsize (G : globals) (m : Nat) :
    ∀ (n : Nat) (p : Int) (reads : List Int),
      rpm_getstr_loop { G with mapsize := m } n p reads = rpm_getstr_loop G n p reads := by
  intro n
  induction n with
  | zero => intro p reads; rfl
  | succ n ih =>
    intro p reads
    simp only [rpm_getstr_loop]
    have hs : strlen { G with mapsize := m } p = strlen G p := rfl
    rw [hs]
    exact ih _ _

/-- The accessors never look at `G.mapsize`. -/
theorem accessors_ignore_mapsize (G : globals) (tag itemindex : Int) (m : Nat) :
    rpm_getint { G with mapsize := m } tag itemindex = rpm_getint G tag itemindex ∧
    rpm_getstr { G with mapsize := m } tag itemindex = rpm_getstr G tag itemindex := by
  refine ⟨rfl, ?_⟩
  have hfind : find_tag { G with mapsize := m } tag = find_tag G tag := rfl
  unfold rpm_getstr
  rw [hfind]
  simp only [rpm_getstr_loop_ignores_mapsize]

/-- C7, amended: the accessors read without a test against `G.mapsize`, and
their results do not depend on it. For an entry found by the lookup and `i`
below its count, `rpm_getint` reads exactly the `width` bytes from
`offset + i*width`, and they lie inside `[0, mapsize)` when
`offset + (i+1)*width ≤ mapsize`. `rpm_getstr` on an entry of string kind never
returns `NULL`: for every mapping it scans a run of `len` bytes from `offset`,
reads all of them, the run holds exactly `i` NUL bytes and ends with one, and
the pointer returned is `offset + len`; the bytes read lie inside `[0, mapsize)`
when the mapped bytes from `offset` begin with `i` NUL-terminated strings. -/
theorem accessor_reads_unchecked (G : globals) (tag : Int) (found : rpm_index) (i : Nat)
    (hf : find_tag G tag = some found) (hi : i < found.count) (hint : i < 2 ^ 31) :
    (∀ m : Nat, rpm_getint { G with mapsize := m } tag i = rpm_getint G tag i ∧
      rpm_getstr { G with mapsize := m } tag i = rpm_getstr G tag i) ∧
    (∀ width : Nat,
      (found.type = RPM_INT32_TYPE ∧ width = 4) ∨ (found.type = RPM_INT16_TYPE ∧ width = 2)
        ∨ (found.type = RPM_INT8_TYPE ∧ width = 1) →
      (rpm_getint G tag i).reads
          = (List.range width).map (fun j => ((found.offset + i * width + j : Nat) : Int)) ∧
        (found.offset + (i + 1) * width ≤ G.mapsize →
          ∀ a ∈ (rpm_getint G tag i).reads, 0 ≤ a ∧ a < (G.mapsize : Int))) ∧
    (found.type = RPM_STRING_TYPE ∨ found.type = RPM_I18NSTRING_TYPE
        ∨ found.type = RPM_STRING_ARRAY_TYPE →
      ∃ len : Nat,
        (rpm_getstr G tag i).val = some ((found.offset + len : Nat) : Int) ∧
        (rpm_getstr G tag i).reads
          = (List.range len).map (fun j => ((found.offset + j : Nat) : Int)) ∧
        ((List.range len).filter
          (fun j => decide (peek G ((found.offset + j : Nat) : Int) = 0))).length = i ∧
        (0 < len → peek G ((found.offset + (len - 1) : Nat) : Int) = 0)) ∧
    (∀ strs : List (List Nat),
      found.type = RPM_STRING_TYPE ∨ found.type = RPM_I18NSTRING_TYPE
        ∨ found.type = RPM_STRING_ARRAY_TYPE →
      (∀ s ∈ strs, 0 ∉ s) → strs.length = i → G.map.length ≤ G.mapsize →
      (strs.map (fun s => s ++ [0])).flatten <+: (mapped_bytes G).drop found.offset →
      (rpm_getstr G tag i).reads
          = (List.range ((strs.map (fun s => s.length + 1)).sum)).map
              (fun j => ((found.offset + j : Nat) : Int)) ∧
        ∀ a ∈ (rpm_getstr G tag i).reads, 0 ≤ a ∧ a < (G.mapsize : Int)) := by
  have hu : toUInt32 (i : Int) = i := toUInt32_natCast i (by omega)
  have hlt : ¬ toUInt32 (i : Int) ≥ found.count := by omega
  refine ⟨fun m => accessors_ignore_mapsize G tag i m, ?_, ?_, ?_⟩
  · intro width hw
    have hreads : (rpm_getint G tag i).reads
        = (List.range width).map (fun j => ((found.offset + i * width + j : Nat) : Int)) := by
      have h32 : ¬ RPM_INT16_TYPE = RPM_INT32_TYPE := by decide
      have h832 : ¬ RPM_INT8_TYPE = RPM_INT32_TYPE := by decide
      have h816 : ¬ RPM_INT8_TYPE = RPM_INT16_TYPE := by decide
      unfold rpm_getint
      rcases hw with ⟨ht, rfl⟩ | ⟨ht, rfl⟩ | ⟨ht, rfl⟩
      · simp only [hf, hlt, if_false, ht, if_true]
        simp [List.range_succ, add_assoc]
      · simp only [hf, hlt, if_false, ht, if_true, h32]
        simp [List.range_succ, add_assoc]
      · simp only [hf, hlt, if_false, ht, if_true, h832, h816]
        simp [List.range_succ]
    refine ⟨hreads, ?_⟩
    intro hin a ha
    rw [hreads] at ha
    obtain ⟨j, hj, rfl⟩ := List.mem_map.1 ha
    have hj2 := List.mem_range.1 hj
    have : found.offset + i * width + j < G.mapsize := by
      have : (i + 1) * width = i * width + width := by ring
      omega
    exact ⟨Int.natCast_nonneg _, by exact_mod_cast this⟩
  · intro ht
    obtain ⟨len, hloop, hcount, hlast⟩ := rpm_getstr_loop_scan G i found.offset []
    refine ⟨len, ?_, ?_, hcount, hlast⟩
    · unfold rpm_getstr
      simp only [hf, hlt, if_false, ht, if_true, Int.toNat_ofNat, hloop]
    · unfold rpm_getstr
      simp only [hf, hlt, if_false, ht, if_true, Int.toNat_ofNat, hloop, List.nil_append]
  · intro strs ht hz hlen hml hpre
    have hloop := rpm_getstr_loop_strs G strs found.offset [] hz hpre
    rw [hlen] at hloop
    have hreads : (rpm_getstr G tag i).reads
        = (List.range ((strs.map (fun s => s.length + 1)).sum)).map
            (fun j => ((found.offset + j : Nat) : Int)) := by
      unfold rpm_getstr
      simp only [hf, hlt, if_false, ht, if_true, Int.toNat_ofNat, hloop, List.nil_append]
    refine ⟨hreads, ?_⟩
    intro a ha
    rw [hreads] at ha
    obtain ⟨j, hj, rfl⟩ := List.mem_map.1 ha
    have hj2 := List.mem_range.1 hj
    have hle := hpre.length_le
    have hfl : ((strs.map (fun s => s ++ [0])).flatten).length
        = (strs.map (fun s => s.length + 1)).sum := by
      rw [List.length_flatten, List.map_map]
      congr 1
      apply List.map_congr_left
      intro s _
      simp
    rw [hfl, List.length_drop] at hle
    have hmb : (mapped_bytes G).length = G.map.length := by simp [mapped_bytes]
    have : found.offset + j < G.mapsize := by omega
    exact ⟨Int.natCast_nonneg _, by exact_mod_cast this⟩

/-- Witness of `accessor_reads_unchecked`: string 1 of the `TAG_NAME` record of
`oob_index`, whose first string has no terminator in the four mapped bytes. The
scan leaves the mapping: it reads the addresses 2, 3 and 4 and returns the
address 5, with `mapsize` 4, and it does the same whatever `mapsize` is. -/
theorem accessor_reads_unchecked_witness :
    (rpm_getstr oob_index 1000 (1 : Nat)).val = some 5 ∧
    (rpm_getstr oob_index 1000 (1 : Nat)).reads = [2, 3, 4] ∧
    oob_index.mapsize = 4 ∧
    (∀ m : Nat, rpm_getstr { oob_index with mapsize := m } 1000 (1 : Nat)
      = rpm_getstr oob_index 1000 (1 : Nat)) ∧
    ∃ len : Nat,
      (rpm_getstr oob_index 1000 (1 : Nat)).val = some ((2 + len : Nat) : Int) ∧
      (rpm_getstr oob_index 1000 (1 : Nat)).reads
        = (List.range len).map (fun j => ((2 + j : Nat) : Int)) ∧
      ((List.range len).filter
        (fun j => decide (peek oob_index ((2 + j : Nat) : Int) = 0))).length = 1 ∧
      (0 < len → peek oob_index ((2 + (len - 1) : Nat) : Int) = 0) :=
  have h := accessor_reads_unchecked oob_index 1000 ⟨1000, 6, 2, 2⟩ 1
    (by decide) (by decide) (by decide)
  ⟨by decide, by decide, rfl, fun m => (h.1 m).2, h.2.2.1 (by decide)⟩

/-! ## C10: config file backup -/

/-- C10: in `noflags_index` no `TAG_FILEFLAGS` record exists, so file 0 carries
no `Config` flag; with a regular file at the destination `/a`,
`fileaction_dobackup` still copies it to `/a.rpmorig` and removes it, because
`rpm_getint` returns -1 for the absent tag and `-1 & RPMFILE_CONFIG` is not 0. -/
theorem fileaction_dobackup_without_flags :
    find_tag noflags_index TAG_FILEFLAGS = none ∧
    (rpm_getint noflags_index TAG_FILEFLAGS 0).val = -1 ∧
    fileaction_dobackup noflags_index (fun _ => some 0o100644) [47, 97] 0
      = [FsOp.copy_file [47, 97] [47, 97, 46, 114, 112, 109, 111, 114, 105, 103],
         FsOp.remove_file [47, 97]] := by
  decide

/-- What `fileaction_dobackup` does in terms of the value of `rpm_getint`: the
backup is made when bit 0 of that value is set and `lstat` finds a regular file,
and nothing is changed otherwise. -/
theorem fileaction_dobackup_cases (G : globals) (lstat : List Nat → Option Nat)
    (filename : List Nat) (fileref : Int) :
    ((toUInt32 (rpm_getint G TAG_FILEFLAGS fileref).val &&& RPMFILE_CONFIG ≠ 0
        ∧ ∃ m, lstat filename = some m ∧ S_ISREG m = true) →
      fileaction_dobackup G lstat filename fileref
        = [FsOp.copy_file filename (filename ++ rpmorig), FsOp.remove_file filename]) ∧
    (¬ (toUInt32 (rpm_getint G TAG_FILEFLAGS fileref).val &&& RPMFILE_CONFIG ≠ 0
        ∧ ∃ m, lstat filename = some m ∧ S_ISREG m = true) →
      fileaction_dobackup G lstat filename fileref = []) := by
  unfold fileaction_dobackup
  by_cases hc : toUInt32 (rpm_getint G TAG_FILEFLAGS fileref).val &&& RPMFILE_CONFIG ≠ 0
  · cases hl : lstat filename with
    | none => simp [hc]
    | some m =>
      by_cases hr : S_ISREG m = true
      · simp [hc, hr]
      · simp [hc, hr]
  · simp [hc]

/-! ## Page arithmetic and the mapping -/

theorem and_page_mask (x k : Nat) (hx : x < 2 ^ 32) (hk : k ≤ 32) :
    x &&& (2 ^ 32 - 2 ^ k) = x / 2 ^ k * 2 ^ k := by
  have hmask : 2 ^ 32 - 2 ^ k = 2 ^ k * (2 ^ (32 - k) - 1) := by
    have h1 : 2 ^ 32 = 2 ^ k * 2 ^ (32 - k) := by
      rw [← Nat.pow_add]
      congr 1
      omega
    have h2 : 1 ≤ 2 ^ (32 - k) := Nat.one_le_two_pow
    rw [Nat.mul_sub, Nat.mul_one, ← h1]
  have hdiv : x / 2 ^ k * 2 ^ k = 2 ^ k * (x >>> k) := by
    rw [Nat.shiftRight_eq_div_pow, Nat.mul_comm]
  rw [hmask, hdiv]
  apply Nat.eq_of_testBit_eq
  intro i
  rw [Nat.testBit_and, Nat.testBit_mul_pow_two, Nat.testBit_mul_pow_two,
    Nat.testBit_two_pow_sub_one, Nat.testBit_shiftRight]
  by_cases hik : i ≥ k
  · have e : k + (i - k) = i := by omega
    rw [e]
    by_cases hi32 : i < 32
    · have : i - k < 32 - k := by omega
      simp [hik, this]
    · have hxi : x < 2 ^ i :=
        lt_of_lt_of_le hx (Nat.pow_le_pow_right (by omega) (by omega))
      simp [Nat.testBit_lt_two_pow hxi]
  · simp [hik]

/-- The value `(storepos + pagesize) & -(int)pagesize` for a page size `2^k` and
a store length `L` with `L + 2^k` below 2^32: the next multiple of the page
size above `L`. -/
theorem mapsize_formula (L k : Nat) (hk : k < 32) (hL : L + 2 ^ k < 2 ^ 32) :
    ((L + 2 ^ k) % 2 ^ 32) &&& ((2 ^ 32 - 2 ^ k % 2 ^ 32) % 2 ^ 32)
      = (L / 2 ^ k + 1) * 2 ^ k := by
  have hp : 0 < 2 ^ k := Nat.two_pow_pos k
  have hpk : 2 ^ k < 2 ^ 32 := Nat.pow_lt_pow_right (by omega) hk
  have h2 : (L + 2 ^ k) % 2 ^ 32 = L + 2 ^ k := Nat.mod_eq_of_lt hL
  have h3 : 2 ^ k % 2 ^ 32 = 2 ^ k := Nat.mod_eq_of_lt hpk
  have h4 : (2 ^ 32 - 2 ^ k) % 2 ^ 32 = 2 ^ 32 - 2 ^ k := Nat.mod_eq_of_lt (by omega)
  rw [h2, h3, h4, and_page_mask _ k hL (by omega), Nat.add_div_right _ hp]

theorem mmap_read_of_ne_zero (file : List Nat) (size pagesize : Nat) (h : size ≠ 0) :
    ∃ map, mmap_read file size pagesize = some map := by
  unfold mmap_read
  rw [if_neg h]
  exact ⟨_, rfl⟩

set_option maxRecDepth 100000 in
/-- Where the store length plus the page size reaches 2^32 the mapping length
wraps to 0, `mmap` fails and `rpm_gettags` exits: `wrap_file` has the headers
and records of a well-formed file and a total store length of 0xfffff000, and
with a page of 4096 bytes it is not decoded. -/
theorem rpm_gettags_wrap_exits :
    well_formed wrap_file 1 4 2 4294963016 ∧
    total_store_length 1 4 2 4294963016 + 4096 = 2 ^ 32 ∧
    rpm_gettags wrap_file 0 4096 = none :=
  ⟨by unfold well_formed; decide, by decide, by decide⟩

/-- What a successful run of `rpm_gettags` went through: both passes returned,
the mapping did not fail, and the globals hold the records of the second pass,
the mapping length `(storepos + pagesize) & -(int)pagesize` and the mapping. -/
theorem rpm_gettags_inv (file : List Nat) (start pagesize : Nat) (G : globals) (pos : Nat)
    (h : rpm_gettags file start pagesize = some (G, pos)) :
    ∃ st1 st2,
      gettags_pass file 0 { pos := start + 96, storepos := (start + 96) % 2 ^ 32, tags := [] }
        = some st1 ∧
      gettags_pass file 1 st1 = some st2 ∧ G.mytags = st2.tags ∧ pos = st2.pos ∧
      G.mapsize
        = ((st2.storepos + pagesize) % 2 ^ 32) &&& ((2 ^ 32 - pagesize % 2 ^ 32) % 2 ^ 32) ∧
      mmap_read file G.mapsize pagesize = some G.map := by
  unfold rpm_gettags at h
  simp only at h
  split at h
  · exact absurd h (by simp)
  · rename_i st1 h1
    split at h
    · exact absurd h (by simp)
    · rename_i st2 h2
      split at h
      · exact absurd h (by simp)
      · rename_i map hmap
        simp only [Option.some.injEq, Prod.mk.injEq] at h
        obtain ⟨hG, hpos⟩ := h
        subst hG
        exact ⟨st1, st2, h1, h2, rfl, hpos.symm, rfl, hmap⟩


/-! ## C5: layout of the decoded index -/

theorem byte_at_lt (buf : List Nat) (k : Nat) : byte_at buf k < 256 := by
  unfold byte_at
  omega

theorem byte_at_window (file : List Nat) (pos n k : Nat) (hk : k < n) :
    byte_at ((file.drop pos).take n) k = byte_at file (pos + k) := by
  unfold byte_at
  rw [List.getD_eq_getElem?_getD, List.getD_eq_getElem?_getD, List.getElem?_take_of_lt hk,
    List.getElem?_drop]

theorem ntohl_word_at (buf : List Nat) (k : Nat) :
    ntohl (word_at buf k)
      = byte_at buf k * 2 ^ 24 + byte_at buf (k + 1) * 2 ^ 16 + byte_at buf (k + 2) * 2 ^ 8
        + byte_at buf (k + 3) := by
  unfold word_at
  exact ntohl_host32 _ _ _ _ (byte_at_lt _ _) (byte_at_lt _ _) (byte_at_lt _ _) (byte_at_lt _ _)

theorem ntohl_word_at_window (file : List Nat) (pos n k : Nat) (hk : k + 4 ≤ n) :
    ntohl (word_at ((file.drop pos).take n) k) = wire32 file (pos + k) := by
  rw [ntohl_word_at, byte_at_window _ _ _ _ (by omega), byte_at_window _ _ _ _ (by omega),
    byte_at_window _ _ _ _ (by omega), byte_at_window _ _ _ _ (by omega)]
  unfold wire32
  simp only [Nat.add_assoc]

theorem wire32_lt (file : List Nat) (pos : Nat) : wire32 file pos < 2 ^ 32 := by
  unfold wire32
  have h0 := byte_at_lt file pos
  have h1 := byte_at_lt file (pos + 1)
  have h2 := byte_at_lt file (pos + 2)
  have h3 := byte_at_lt file (pos + 3)
  omega

theorem word_at_lt (buf : List Nat) (k : Nat) : word_at buf k < 2 ^ 32 := by
  unfold word_at host32
  have h0 := byte_at_lt buf k
  have h1 := byte_at_lt buf (k + 1)
  have h2 := byte_at_lt buf (k + 2)
  have h3 := byte_at_lt buf (k + 3)
  omega

theorem magic_test (buf : List Nat) :
    word_at buf 0 ≠ htonl RPM_HEADER_MAGICnVER ↔ ntohl (word_at buf 0) ≠ RPM_HEADER_MAGICnVER := by
  have hm : htonl RPM_HEADER_MAGICnVER = 32025998 := by decide
  have hM : RPM_HEADER_MAGICnVER = 2393761793 := by decide
  rw [ntohl_word_at, hm, hM]
  unfold word_at host32
  have h0 := byte_at_lt buf 0
  have h1 := byte_at_lt buf (0 + 1)
  have h2 := byte_at_lt buf (0 + 2)
  have h3 := byte_at_lt buf (0 + 3)
  omega

theorem and_seven (n : Nat) : n &&& 7 = n % 8 := by
  have := Nat.and_pow_two_sub_one_eq_mod n 3
  simpa using this

theorem pad_size_loop_eq : ∀ (fuel size : Nat), (8 - size % 8) % 8 ≤ fuel → size + 7 < 2 ^ 32 →
    pad_size_loop fuel size = round_up8 size := by
  intro fuel
  induction fuel with
  | zero =>
    intro size h1 _
    unfold pad_size_loop round_up8
    omega
  | succ fuel ih =>
    intro size h1 h2
    unfold pad_size_loop
    rw [and_seven]
    by_cases hz : size % 8 = 0
    · simp only [hz, ne_eq, not_true_eq_false, if_false]
      unfold round_up8
      omega
    · simp only [hz, ne_eq, not_false_eq_true, if_true]
      have hs : (size + 1) % 2 ^ 32 = size + 1 := Nat.mod_eq_of_lt (by omega)
      rw [hs, ih (size + 1) (by omega) (by omega)]
      unfold round_up8
      omega

theorem convert_tag_window (file : List Nat) (pos n k storepos pass : Nat) (hk : k < n)
    (hoff : storepos + wire32 file (pos + 16 * k + 8) < 2 ^ 32) :
    convert_tag ((file.drop pos).take (16 * n)) storepos pass k
      = layout_entry file (pos + 16 * k) storepos (if pass = 0 then 743 else 0) := by
  unfold convert_tag layout_entry
  rw [ntohl_word_at_window _ _ _ _ (by omega), ntohl_word_at_window _ _ _ _ (by omega),
    ntohl_word_at_window _ _ _ _ (by omega), ntohl_word_at_window _ _ _ _ (by omega)]
  have hw := wire32_lt file (pos + 16 * k)
  simp only [Nat.add_assoc] at hoff ⊢
  rw [Nat.mod_eq_of_lt hoff]
  congr 1
  unfold toUInt32
  by_cases hp : pass = 0
  · simp only [hp, if_true]
    omega
  · simp only [hp, if_false]
    omega

theorem gettags_pass_layout (file : List Nat) (pass : Nat) (st : gettags_state) (n d : Nat)
    (hmagic : wire32 file st.pos = RPM_HEADER_MAGICnVER) (hn : wire32 file (st.pos + 8) = n)
    (hd : wire32 file (st.pos + 12) = d) (hlen : st.pos + 16 + 16 * n ≤ file.length)
    (hsp : st.storepos = st.pos)
    (hoff : ∀ k, k < n → wire32 file (st.pos + 16 + 16 * k + 8) ≤ d)
    (htot : st.pos + 16 + 16 * n + (if pass = 0 then round_up8 d else d) < 2 ^ 32) :
    gettags_pass file pass st = some
      { pos := st.pos + 16 + 16 * n + (if pass = 0 then round_up8 d else d)
        storepos := st.pos + 16 + 16 * n + (if pass = 0 then round_up8 d else d)
        tags := st.tags ++ (List.range n).map (fun k =>
          layout_entry file (st.pos + 16 + 16 * k) (st.pos + 16 + 16 * n)
            (if pass = 0 then 743 else 0)) } := by
  have hr8 : d ≤ round_up8 d := by unfold round_up8; omega
  have hx1 : xread file st.pos sizeof_rpm_header = some ((file.drop st.pos).take 16) := by
    unfold xread sizeof_rpm_header
    rw [if_pos (by omega)]
  have hx2 : xread file (st.pos + sizeof_rpm_header) (16 * n)
      = some ((file.drop (st.pos + 16)).take (16 * n)) := by
    unfold xread sizeof_rpm_header
    rw [if_pos (by omega)]
  have hm : ¬ word_at ((file.drop st.pos).take 16) 0 ≠ htonl RPM_HEADER_MAGICnVER := by
    rw [magic_test, ntohl_word_at_window _ _ _ _ (by omega)]
    simpa using hmagic
  have hcnt : ntohl (word_at ((file.drop st.pos).take 16) 8) = n := by
    rw [ntohl_word_at_window _ _ _ _ (by omega), hn]
  have hsize : ntohl (word_at ((file.drop st.pos).take 16) 12) = d := by
    rw [ntohl_word_at_window _ _ _ _ (by omega), hd]
  have hstore : (st.storepos + (sizeof_rpm_header + (n * 16) % 2 ^ 32)) % 2 ^ 32
      = st.pos + 16 + 16 * n := by
    unfold sizeof_rpm_header
    rw [hsp]
    split at htot <;> omega
  have hpad : (if pass = 0 then pad_size_loop 7 d else d)
      = (if pass = 0 then round_up8 d else d) := by
    by_cases hp : pass = 0
    · simp only [hp, if_true] at htot ⊢
      exact pad_size_loop_eq 7 d (by omega) (by omega)
    · simp only [hp, if_false]
  unfold gettags_pass
  simp only [hx1, hm, if_false, hcnt, hsize, hstore, hx2, hpad]
  have hsz : sizeof_rpm_header = 16 := rfl
  have hpos : st.pos + sizeof_rpm_header + 16 * n + (if pass = 0 then round_up8 d else d)
      = st.pos + 16 + 16 * n + (if pass = 0 then round_up8 d else d) := by rw [hsz]
  rw [hpos, Nat.mod_eq_of_lt htot]
  congr 3
  apply List.map_congr_left
  intro k hk
  have hk2 := List.mem_range.1 hk
  have h1 := hoff k hk2
  have := convert_tag_window file (st.pos + 16) n k (st.pos + 16 + 16 * n) pass hk2
    (by split at htot <;> omega)
  exact this

/-- The run of `rpm_gettags` on a well-formed file from position 0 with the page
size `2^k`, when the total store length and one page stay below 2^32: the
globals it sets and the file position it leaves. -/
theorem rpm_gettags_decodes (file : List Nat) (k n1 d1 n2 d2 : Nat)
    (h : well_formed file n1 d1 n2 d2) (hk : k < 32)
    (hfit : total_store_length n1 d1 n2 d2 + 2 ^ k < 2 ^ 32) :
    ∃ map,
      mmap_read file ((total_store_length n1 d1 n2 d2 / 2 ^ k + 1) * 2 ^ k) (2 ^ k) = some map ∧
      rpm_gettags file 0 (2 ^ k) = some
        ({ map := map, mytags := layout_entries file n1 d1 n2,
           mapsize := (total_store_length n1 d1 n2 d2 / 2 ^ k + 1) * 2 ^ k },
          total_store_length n1 d1 n2 d2) := by
  obtain ⟨hm1, hn1, hd1, hm2, hn2, hd2, hlen, ho1, ho2, htot⟩ := h
  have hr8 : d1 ≤ round_up8 d1 := by unfold round_up8; omega
  have e1 : main_header_start n1 d1 = 96 + 16 + 16 * n1 + round_up8 d1 := rfl
  have e2 : main_store_start n1 d1 n2 = main_header_start n1 d1 + 16 + 16 * n2 := rfl
  have e3 : total_store_length n1 d1 n2 d2 = main_store_start n1 d1 n2 + d2 := rfl
  have e4 : 96 + 16 + 16 * n1 + round_up8 d1 + 16 + 16 * n2 + d2
      = total_store_length n1 d1 n2 d2 := rfl
  have hp0 := gettags_pass_layout file 0 { pos := 96, storepos := 96, tags := [] } n1 d1
    hm1 hn1 hd1 (by simp only; omega) rfl ho1 (by simp only [if_true]; omega)
  simp only [if_true, List.nil_append] at hp0
  have hp1 := gettags_pass_layout file 1
    { pos := 96 + 16 + 16 * n1 + round_up8 d1, storepos := 96 + 16 + 16 * n1 + round_up8 d1,
      tags := (List.range n1).map (fun k =>
        layout_entry file (96 + 16 + 16 * k) (96 + 16 + 16 * n1) 743) } n2 d2
    (by rw [← e1]; exact hm2) (by rw [← e1]; exact hn2) (by rw [← e1]; exact hd2)
    (by simp only; omega) rfl (by simpa only [← e1] using ho2)
    (by simp only [Nat.one_ne_zero, if_false]; omega)
  simp only [Nat.one_ne_zero, if_false] at hp1
  have hne : (total_store_length n1 d1 n2 d2 / 2 ^ k + 1) * 2 ^ k ≠ 0 :=
    Nat.mul_ne_zero (Nat.succ_ne_zero _) (Nat.ne_of_gt (Nat.two_pow_pos k))
  obtain ⟨map, hmap⟩ := mmap_read_of_ne_zero file _ (2 ^ k) hne
  refine ⟨map, hmap, ?_⟩
  unfold rpm_gettags
  have hs0 : (0 + 96) % 2 ^ 32 = 96 := by decide
  simp only [Nat.zero_add, hs0, hp0, hp1, e4,
    mapsize_formula (total_store_length n1 d1 n2 d2) k hk hfit, hmap]
  rfl

/-- C5: for a well-formed file read from position 0, on a system whose page size
is a power of two and with the total store length and one page below 2^32 (else
the 32-bit `storepos` wraps, the mapping fails and `rpm_gettags` exits),
`rpm_gettags` returns with the file position at the total store length (the main
store start plus `d2`) and stores the `n1 + n2` entries of the reference layout:
type and count as on the wire, offsets counted from a signature store at
`96 + 16 + 16*n1` and a main store `16 + 16*n2` bytes after a main header that
starts `d1` rounded up to 8 past the signature store, signature tags lowered by
743, main tags unchanged. -/
theorem rpm_gettags_layout (file : List Nat) (k n1 d1 n2 d2 : Nat)
    (h : well_formed file n1 d1 n2 d2) (hk : k < 32)
    (hfit : total_store_length n1 d1 n2 d2 + 2 ^ k < 2 ^ 32) :
    ∃ G, rpm_gettags file 0 (2 ^ k) = some (G, total_store_length n1 d1 n2 d2) ∧
      G.mytags = layout_entries file n1 d1 n2 ∧ G.tagcount = n1 + n2 := by
  obtain ⟨map, _, hG⟩ := rpm_gettags_decodes file k n1 d1 n2 d2 h hk hfit
  refine ⟨_, hG, rfl, ?_⟩
  simp [globals.tagcount, layout_entries]

set_option maxRecDepth 100000 in
/-- Witness of `rpm_gettags_layout`: `sample_file` with one signature record and
4 bytes of signature data, two main records and 4 bytes of main data, on pages
of 4096 bytes. -/
theorem rpm_gettags_layout_witness :
    well_formed sample_file 1 4 2 4 ∧
    ∃ G, rpm_gettags sample_file 0 (2 ^ 12) = some (G, total_store_length 1 4 2 4) ∧
      G.mytags = layout_entries sample_file 1 4 2 ∧ G.tagcount = 1 + 2 :=
  ⟨by unfold well_formed; decide,
    rpm_gettags_layout sample_file 12 1 4 2 4 (by unfold well_formed; decide) (by decide)
      (by decide)⟩

/-! ## C6: order of the decoded index -/

theorem gettags_pass_tags (file : List Nat) (pass : Nat) (st st1 : gettags_state)
    (h : gettags_pass file pass st = some st1) :
    st1.pos = st.pos + 16 + 16 * wire32 file (st.pos + 8)
        + (if pass = 0 then pad_size_loop 7 (wire32 file (st.pos + 12))
            else wire32 file (st.pos + 12)) ∧
    st1.tags.map (fun e => e.tag) = st.tags.map (fun e => e.tag)
      ++ (List.range (wire32 file (st.pos + 8))).map (fun k =>
          if pass = 0 then toUInt32 ((wire32 file (st.pos + 16 + 16 * k) : Int) - 743)
          else wire32 file (st.pos + 16 + 16 * k)) := by
  unfold gettags_pass at h
  cases hx1 : xread file st.pos sizeof_rpm_header with
  | none => rw [hx1] at h; exact absurd h (by simp)
  | some header =>
    rw [hx1] at h
    simp only at h
    by_cases hm : word_at header 0 ≠ htonl RPM_HEADER_MAGICnVER
    · rw [if_pos hm] at h; exact absurd h (by simp)
    · rw [if_neg hm] at h
      cases hx2 : xread file (st.pos + sizeof_rpm_header) (16 * ntohl (word_at header 8)) with
      | none => rw [hx2] at h; exact absurd h (by simp)
      | some raw =>
        rw [hx2] at h
        simp only [Option.some.injEq] at h
        unfold xread at hx1 hx2
        by_cases hl1 : st.pos + sizeof_rpm_header ≤ file.length
        · rw [if_pos hl1] at hx1
          by_cases hl2 : st.pos + sizeof_rpm_header + 16 * ntohl (word_at header 8) ≤ file.length
          · rw [if_pos hl2] at hx2
            simp only [Option.some.injEq] at hx1 hx2
            subst hx1 hx2
            rw [ntohl_word_at_window _ _ _ _ (by unfold sizeof_rpm_header; omega),
              ntohl_word_at_window _ _ _ _ (by unfold sizeof_rpm_header; omega)] at h
            subst h
            simp only [sizeof_rpm_header, List.map_append, List.map_map, true_and]
            refine congrArg (fun l => List.map (fun e => e.tag) st.tags ++ l) ?_
            apply List.map_congr_left
            intro k hk
            have hk2 := List.mem_range.1 hk
            simp only [Function.comp, convert_tag]
            rw [ntohl_word_at_window _ _ _ _ (by omega)]
            have hw := wire32_lt file (st.pos + 16 + 16 * k)
            by_cases hp : pass = 0
            · simp only [hp, if_true]
              unfold toUInt32
              omega
            · simp only [hp, if_false]
          · rw [if_neg hl2] at hx2; exact absurd hx2 (by simp)
        · rw [if_neg hl1] at hx1; exact absurd hx1 (by simp)

/-- C6, counterexample: `rpm_gettags` decodes `sample_file`, whose sections
each list their records in ascending tag order, and stores the tags 264, 100,
1000 in that order: the merged index is not sorted. -/
theorem rpm_gettags_unsorted :
    (rpm_gettags sample_file 0 4096).map (fun r => r.1.mytags.map (fun e => toInt32 e.tag))
      = some [264, 100, 1000] ∧
    ∀ r ∈ rpm_gettags sample_file 0 4096, ¬ sorted_by_tag r.1.mytags := by
  set_option maxRecDepth 100000 in decide

/-- C6, amended: for every input that `rpm_gettags` decodes, the merged index
holds the records in the order of the file, signature records (tags lowered by
743) before main records, and no sort is applied; it is sorted ascending by tag
id exactly when the tags of the file, so renumbered, are in ascending order. -/
theorem rpm_gettags_keeps_wire_order (file : List Nat) (start pagesize : Nat) (G : globals)
    (pos : Nat) (h : rpm_gettags file start pagesize = some (G, pos)) :
    G.mytags.map (fun e => e.tag) = wire_tags file start ∧
    (sorted_by_tag G.mytags ↔
      (wire_tags file start).Pairwise (fun a b => toInt32 a ≤ toInt32 b)) := by
  have htags : G.mytags.map (fun e => e.tag) = wire_tags file start := by
    obtain ⟨st1, st2, h1, h2, hG, _, _, _⟩ := rpm_gettags_inv file start pagesize G pos h
    obtain ⟨hpos1, ht1⟩ := gettags_pass_tags file 0 _ st1 h1
    obtain ⟨_, ht2⟩ := gettags_pass_tags file 1 _ st2 h2
    simp only [if_true, List.map_nil, List.nil_append] at hpos1 ht1
    simp only [Nat.one_ne_zero, if_false] at ht2
    rw [hG, ht2, ht1, hpos1]
    rfl
  refine ⟨htags, ?_⟩
  rw [← htags]
  unfold sorted_by_tag
  rw [List.pairwise_map]

set_option maxRecDepth 100000 in
/-- Witness of `rpm_gettags_keeps_wire_order`: the decoding of `sample_file`. -/
theorem rpm_gettags_keeps_wire_order_witness :
    ∃ G pos, rpm_gettags sample_file 0 4096 = some (G, pos) ∧
      G.mytags.map (fun e => e.tag) = wire_tags sample_file 0 ∧
      (sorted_by_tag G.mytags ↔
        (wire_tags sample_file 0).Pairwise (fun a b => toInt32 a ≤ toInt32 b)) :=
  match hr : rpm_gettags sample_file 0 4096 with
  | some (G, pos) => ⟨G, pos, rfl, rpm_gettags_keeps_wire_order sample_file 0 4096 G pos hr⟩
  | none => absurd hr (by decide)

/-! ## The inode table of `reflink_package` -/

theorem inode_le_iff (a b : ifi_t) :
    inode_le a b ↔ a.inode < b.inode ∨ (a.inode = b.inode ∧ a.fi ≤ b.fi) := by
  unfold inode_le compare_inodes
  split
  · split <;> omega
  · split <;> omega

theorem inode_le_total : IsTotal ifi_t inode_le :=
  ⟨fun a b => by rw [inode_le_iff, inode_le_iff]; omega⟩

theorem inode_le_trans : IsTrans ifi_t inode_le :=
  ⟨fun a b c => by rw [inode_le_iff, inode_le_iff, inode_le_iff]; omega⟩

theorem qsort_sorted (l : List ifi_t) : (qsort compare_inodes l).Pairwise inode_le := by
  haveI := inode_le_total
  haveI := inode_le_trans
  exact List.sorted_insertionSort inode_le l

theorem qsort_perm (l : List ifi_t) : (qsort compare_inodes l).Perm l :=
  List.perm_insertionSort inode_le l

theorem dedup_loop_spec : ∀ (rest : List ifi_t) (i : Nat) (inodes : List ifi_t) (k : Nat)
    (last : ifi_t), k < i → inodes[k]? = some last → inodes.drop i = rest →
    ((dedup_loop rest.length i inodes k).1).take ((dedup_loop rest.length i inodes k).2 + 1)
      = inodes.take (k + 1) ++ first_of_runs last rest := by
  intro rest
  induction rest with
  | nil =>
    intro i inodes k last _ _ _
    simp [dedup_loop, first_of_runs]
  | cons b rest ih =>
    intro i inodes k last hki hk hdrop
    have hi : inodes[i]? = some b := by
      have := congrArg (fun l => l[0]?) hdrop
      simpa [List.getElem?_drop] using this
    have hilen : i < inodes.length := by
      rcases (List.getElem?_eq_some_iff.1 hi) with ⟨h, _⟩
      exact h
    have hdrop1 : inodes.drop (i + 1) = rest := by
      rw [← List.drop_drop, hdrop]
      simp
    simp only [List.length_cons, dedup_loop, hk, hi, first_of_runs]
    by_cases he : last.inode = b.inode
    · simp only [he, if_true]
      exact ih (i + 1) inodes k last (by omega) hk hdrop1
    · simp only [he, if_false]
      have hset : (inodes.set (k + 1) b)[k + 1]? = some b := by
        rw [List.getElem?_set_self (by omega)]
      have hdrop2 : (inodes.set (k + 1) b).drop (i + 1) = rest := by
        rw [List.drop_set_of_lt _ _ (by omega), hdrop1]
      rw [ih (i + 1) (inodes.set (k + 1) b) (k + 1) b (by omega) hset hdrop2]
      have htake : (inodes.set (k + 1) b).take (k + 1 + 1) = inodes.take (k + 1) ++ [b] := by
        rw [List.take_succ, hset, List.set_take, List.set_eq_of_length_le (by simp)]
        rfl
      rw [htake]
      simp

theorem mem_first_of_runs : ∀ (l : List ifi_t) (a x : ifi_t), (a :: l).Pairwise inode_le →
    x ∈ first_of_runs a l → a.inode < x.inode ∧ x ∈ l := by
  intro l
  induction l with
  | nil => intro a x _ hx; simp [first_of_runs] at hx
  | cons b l ih =>
    intro a x hs hx
    have hab : inode_le a b := (List.pairwise_cons.1 hs).1 b (List.mem_cons_self _ _)
    have hsa : (a :: l).Pairwise inode_le :=
      hs.sublist (List.Sublist.cons₂ a (List.sublist_cons_self b l))
    have hsb : (b :: l).Pairwise inode_le := (List.pairwise_cons.1 hs).2
    rw [inode_le_iff] at hab
    unfold first_of_runs at hx
    by_cases he : a.inode = b.inode
    · simp only [he, if_true] at hx
      obtain ⟨h1, h2⟩ := ih a x hsa hx
      exact ⟨h1, List.mem_cons_of_mem _ h2⟩
    · simp only [he, if_false] at hx
      rcases List.mem_cons.1 hx with rfl | hx2
      · exact ⟨by omega, List.mem_cons_self _ _⟩
      · obtain ⟨h1, h2⟩ := ih b x hsb hx2
        exact ⟨by omega, List.mem_cons_of_mem _ h2⟩

theorem first_of_runs_pairwise : ∀ (l : List ifi_t) (a : ifi_t), (a :: l).Pairwise inode_le →
    (a :: first_of_runs a l).Pairwise (fun x y => x.inode < y.inode) := by
  intro l
  induction l with
  | nil => intro a _; simp [first_of_runs]
  | cons b l ih =>
    intro a hs
    have hsa : (a :: l).Pairwise inode_le :=
      hs.sublist (List.Sublist.cons₂ a (List.sublist_cons_self b l))
    have hsb : (b :: l).Pairwise inode_le := (List.pairwise_cons.1 hs).2
    refine List.pairwise_cons.2 ⟨fun x hx => (mem_first_of_runs _ a x hs hx).1, ?_⟩
    unfold first_of_runs
    by_cases he : a.inode = b.inode
    · simp only [he, if_true]
      exact (List.pairwise_cons.1 (ih a hsa)).2
    · simp only [he, if_false]
      exact ih b hsb

theorem first_of_runs_min : ∀ (l : List ifi_t) (a x : ifi_t), (a :: l).Pairwise inode_le →
    x ∈ a :: first_of_runs a l →
    x ∈ a :: l ∧ ∀ y ∈ a :: l, y.inode = x.inode → x.fi ≤ y.fi := by
  intro l a x hs hx
  have hle : ∀ y ∈ a :: l, y.inode = a.inode → a.fi ≤ y.fi := by
    intro y hy hya
    rcases List.mem_cons.1 hy with rfl | hy2
    · exact le_refl _
    · have := (List.pairwise_cons.1 hs).1 y hy2
      rw [inode_le_iff] at this
      omega
  induction l generalizing a with
  | nil =>
    simp only [first_of_runs, List.mem_singleton] at hx
    subst hx
    exact ⟨List.mem_cons_self _ _, hle⟩
  | cons b l ih =>
    rcases List.mem_cons.1 hx with rfl | hx2
    · exact ⟨List.mem_cons_self _ _, hle⟩
    · have hab : inode_le a b := (List.pairwise_cons.1 hs).1 b (List.mem_cons_self _ _)
      have hsb : (b :: l).Pairwise inode_le := (List.pairwise_cons.1 hs).2
      rw [inode_le_iff] at hab
      obtain ⟨hgt, hxl⟩ := mem_first_of_runs _ a x hs hx2
      have hleb : ∀ y ∈ b :: l, y.inode = b.inode → b.fi ≤ y.fi := by
        intro y hy hyb
        rcases List.mem_cons.1 hy with rfl | hy2
        · exact le_refl _
        · have := (List.pairwise_cons.1 hsb).1 y hy2
          rw [inode_le_iff] at this
          omega
      unfold first_of_runs at hx2
      by_cases he : a.inode = b.inode
      · simp only [he, if_true] at hx2
        have hsa : (a :: l).Pairwise inode_le :=
          hs.sublist (List.Sublist.cons₂ a (List.sublist_cons_self b l))
        have hla : ∀ y ∈ a :: l, y.inode = a.inode → a.fi ≤ y.fi :=
          fun y hy => hle y (by
            rcases List.mem_cons.1 hy with rfl | h
            · exact List.mem_cons_self _ _
            · exact List.mem_cons_of_mem _ (List.mem_cons_of_mem _ h))
        obtain ⟨_, h2⟩ := ih a hsa (List.mem_cons_of_mem _ hx2) hla
        refine ⟨List.mem_cons_of_mem _ hxl, ?_⟩
        intro y hy hyx
        rcases List.mem_cons.1 hy with rfl | hy2
        · omega
        · rcases List.mem_cons.1 hy2 with rfl | hy3
          · omega
          · exact h2 y (List.mem_cons_of_mem _ hy3) hyx
      · simp only [he, if_false] at hx2
        obtain ⟨_, h2⟩ := ih b hsb hx2 hleb
        refine ⟨List.mem_cons_of_mem _ hxl, ?_⟩
        intro y hy hyx
        rcases List.mem_cons.1 hy with rfl | hy2
        · omega
        · exact h2 y hy2 hyx

theorem first_of_runs_cover : ∀ (l : List ifi_t) (a y : ifi_t), y ∈ a :: l →
    ∃ x ∈ a :: first_of_runs a l, x.inode = y.inode := by
  intro l
  induction l with
  | nil =>
    intro a y hy
    simp only [List.mem_singleton] at hy
    subst hy
    exact ⟨y, List.mem_cons_self _ _, rfl⟩
  | cons b l ih =>
    intro a y hy
    unfold first_of_runs
    by_cases he : a.inode = b.inode
    · simp only [he, if_true]
      rcases List.mem_cons.1 hy with rfl | hy2
      · exact ⟨y, List.mem_cons_self _ _, rfl⟩
      · rcases List.mem_cons.1 hy2 with rfl | hy3
        · exact ⟨a, List.mem_cons_self _ _, he⟩
        · exact ih a y (List.mem_cons_of_mem _ hy3)
    · simp only [he, if_false]
      rcases List.mem_cons.1 hy with rfl | hy2
      · exact ⟨y, List.mem_cons_self _ _, rfl⟩
      · obtain ⟨x, hx, hxy⟩ := ih b y hy2
        exact ⟨x, List.mem_cons_of_mem _ hx, hxy⟩

theorem dedup_loop_bounds : ∀ (m i : Nat) (inodes : List ifi_t) (k : Nat), k < i →
    i + m ≤ inodes.length →
    (dedup_loop m i inodes k).1.length = inodes.length ∧
      (dedup_loop m i inodes k).2 < inodes.length := by
  intro m
  induction m with
  | zero =>
    intro i inodes k hki hlen
    simp only [dedup_loop]
    exact ⟨trivial, by omega⟩
  | succ m ih =>
    intro i inodes k hki hlen
    have hk : inodes[k]? = some inodes[k] := List.getElem?_eq_getElem (by omega)
    have hi : inodes[i]? = some inodes[i] := List.getElem?_eq_getElem (by omega)
    simp only [dedup_loop, hk, hi]
    by_cases he : inodes[k].inode = inodes[i].inode
    · simp only [he, if_true]
      exact ih (i + 1) inodes k (by omega) (by omega)
    · simp only [he, if_false]
      have := ih (i + 1) (inodes.set (k + 1) inodes[i]) (k + 1) (by omega)
        (by rw [List.length_set]; omega)
      rw [List.length_set] at this
      exact this

theorem mem_fill_inodes (G : globals) (n : Nat) (x : ifi_t) :
    x ∈ fill_inodes G n ↔ ∃ j, j < n ∧ x = ⟨file_inode G j, (j : Int)⟩ := by
  unfold fill_inodes
  rw [List.mem_map]
  constructor
  · rintro ⟨j, hj, rfl⟩
    exact ⟨j, List.mem_range.1 hj, rfl⟩
  · rintro ⟨j, hj, rfl⟩
    exact ⟨j, List.mem_range.2 hj, rfl⟩

theorem search_inode_lt (key : Int) (item : ifi_t) : search_inode key item < 0 ↔ key < item.inode := by
  unfold search_inode
  split
  · omega
  · split <;> omega

theorem search_inode_gt (key : Int) (item : ifi_t) : search_inode key item > 0 ↔ key > item.inode := by
  unfold search_inode
  split
  · omega
  · split <;> omega

theorem search_inode_eq (key : Int) (item : ifi_t) : search_inode key item = 0 ↔ key = item.inode := by
  unfold search_inode
  split
  · omega
  · split <;> omega

/-- The search of `reflink_package` for the inode of a file index below `n`
finds the pair of that inode, and the pair carries the lowest file index that
has the inode. -/
theorem inode_table_lookup (G : globals) (n i : Nat) (hi : i < n) :
    ∃ c : Nat, bsearch (search_inode (file_inode G i)) (inode_table G n).1 (inode_table G n).2
        = some ⟨file_inode G i, (c : Int)⟩ ∧
      c < n ∧ file_inode G c = file_inode G i ∧
      ∀ j, j < n → file_inode G j = file_inode G i → c ≤ j := by
  have hperm := qsort_perm (fill_inodes G n)
  have hsorted := qsort_sorted (fill_inodes G n)
  have hlen : (qsort compare_inodes (fill_inodes G n)).length = n := by
    rw [hperm.length_eq]
    simp [fill_inodes]
  cases hq : qsort compare_inodes (fill_inodes G n) with
  | nil => rw [hq] at hlen; simp at hlen; omega
  | cons a l =>
    rw [hq] at hlen hsorted
    have hl : l.length = n - 1 := by simp at hlen; omega
    have hmem : ∀ x, x ∈ a :: l ↔ ∃ j, j < n ∧ x = ⟨file_inode G j, (j : Int)⟩ := by
      intro x
      rw [← hq, hperm.mem_iff, mem_fill_inodes]
    have hspec := dedup_loop_spec l 1 (a :: l) 0 a (by omega) (by simp) (by simp)
    have hbnd := dedup_loop_bounds l.length 1 (a :: l) 0 (by omega) (by simp; omega)
    simp only [List.take_succ_cons, List.take_zero, List.singleton_append, Nat.zero_add] at hspec
    have htab : inode_table G n
        = ((dedup_loop l.length 1 (a :: l) 0).1, (dedup_loop l.length 1 (a :: l) 0).2 + 1) := by
      unfold inode_table
      rw [hq, hl]
    rw [htab]
    generalize (dedup_loop l.length 1 (a :: l) 0).1 = arr at hspec hbnd
    generalize (dedup_loop l.length 1 (a :: l) 0).2 = k at hspec hbnd
    simp only at hspec hbnd ⊢
    obtain ⟨hal, hkl⟩ := hbnd
    have hget : ∀ idx, idx < k + 1 → arr[idx]? = (a :: first_of_runs a l)[idx]? := by
      intro idx hidx
      rw [← hspec, List.getElem?_take_of_lt hidx]
    have hpw := first_of_runs_pairwise l a hsorted
    have hTlen : (a :: first_of_runs a l).length = k + 1 := by
      rw [← hspec, List.length_take]
      omega
    have hmono : ∀ (p q : Nat) (hp : p < k + 1) (hq : q < k + 1), p ≤ q →
        (arr.get ⟨p, by omega⟩).inode ≤ (arr.get ⟨q, by omega⟩).inode := by
      intro p q hp hq hpq
      have h1 := hget p hp
      have h2 := hget q hq
      rw [List.getElem?_eq_getElem (by omega), List.getElem?_eq_getElem (by omega)] at h1 h2
      simp only [Option.some.injEq] at h1 h2
      simp only [List.get_eq_getElem]
      rw [h1, h2]
      rcases Nat.lt_or_eq_of_le hpq with h | h
      · exact le_of_lt (List.pairwise_iff_getElem.1 hpw p q (by omega) (by omega) h)
      · subst h; exact le_refl _
    have hy : (⟨file_inode G i, (i : Int)⟩ : ifi_t) ∈ a :: l := (hmem _).2 ⟨i, hi, rfl⟩
    obtain ⟨x, hx, hxi⟩ := first_of_runs_cover l a _ hy
    obtain ⟨k0, hk0, hxk⟩ := List.getElem_of_mem hx
    rw [hTlen] at hk0
    have harr0 : arr.get ⟨k0, by omega⟩ = x := by
      have := hget k0 hk0
      rw [List.getElem?_eq_getElem (by omega), List.getElem?_eq_getElem (by omega)] at this
      simp only [Option.some.injEq] at this
      simp only [List.get_eq_getElem]
      rw [this, hxk]
    obtain ⟨p, hp, hz⟩ := bsearch_complete (search_inode (file_inode G i)) arr (k + 1) (by omega)
      (by
        intro p q hp hq hpq h
        rw [search_inode_lt] at h ⊢
        have := hmono p q hp hq hpq
        omega)
      (by
        intro p q hp hq hpq h
        rw [search_inode_gt] at h ⊢
        have := hmono p q hp hq hpq
        omega)
      k0 hk0
      (by rw [harr0, search_inode_eq]; exact hxi.symm)
    obtain ⟨idx, hidx, hpget, _⟩ := bsearch_sound _ _ _ _ hp
    rw [hget idx hidx] at hpget
    have hpT : p ∈ a :: first_of_runs a l := List.getElem?_mem hpget
    obtain ⟨hpl, hpmin⟩ := first_of_runs_min l a p hsorted hpT
    obtain ⟨c, hc, hpc⟩ := (hmem p).1 hpl
    rw [search_inode_eq] at hz
    refine ⟨c, ?_, hc, ?_, ?_⟩
    · rw [hp, hpc]
      have : file_inode G c = file_inode G i := by
        rw [hpc] at hz
        exact hz.symm
      rw [this]
    · rw [hpc] at hz
      exact hz.symm
    · intro j hj hji
      have hyj : (⟨file_inode G j, (j : Int)⟩ : ifi_t) ∈ a :: l := (hmem _).2 ⟨j, hj, rfl⟩
      have := hpmin _ hyj (by rw [← hz]; exact hji)
      rw [hpc] at this
      simp only at this
      omega

/-! ## The main loop of `reflink_package` -/

theorem and_page (x : Nat) : x &&& (PAGE_SIZE - 1) = x % 4096 := by
  have := Nat.and_pow_two_sub_one_eq_mod x 12
  simpa [PAGE_SIZE] using this

theorem payload_start_eq (pos : Nat) : payload_start pos = page_pad pos := by
  unfold payload_start page_pad
  rw [and_page]
  simp only [PAGE_SIZE]
  split <;> omega

theorem page_pad_mod (x : Nat) : page_pad x % 4096 = 0 := by
  unfold page_pad
  simp only [PAGE_SIZE]
  omega

theorem advance_mod (G : globals) (n i : Nat) : advance G n i % 4096 = 0 := by
  unfold advance
  split
  · exact page_pad_mod _
  · rfl

theorem not_dir_lnk_of_reg (m : Nat) (h : S_ISREG m = true) :
    S_ISDIR m = false ∧ S_ISLNK m = false := by
  unfold S_ISREG at h
  unfold S_ISDIR S_ISLNK
  simp only [beq_iff_eq] at h
  simp [h]

/-- A file without payload content leaves the offset as it is. -/
theorem reflink_file_no_content (E : Env) (G : globals) (inodes : List ifi_t) (ninodes i off : Nat)
    (h : has_content G i = false) :
    ∃ acts, reflink_file E G inodes ninodes i off = some (acts, off) := by
  unfold has_content at h
  unfold reflink_file
  by_cases hg : is_ghost G i = true
  · simp only [hg, if_true]
    exact ⟨_, rfl⟩
  · have hreg : S_ISREG (file_mode G i) = false := by
      cases hr : S_ISREG (file_mode G i)
      · rfl
      · rw [hr] at h
        simp only [Bool.not_eq_true] at hg
        simp [hg] at h
    simp only [hg, hreg]
    by_cases hs : is_filtered E G i = true
    · simp [hs]
    · simp only [Bool.not_eq_true] at hs
      simp only [hs]
      by_cases hd : S_ISDIR (file_mode G i) = true
      · simp [hd]
      · by_cases hl : S_ISLNK (file_mode G i) = true
        · simp [hd, hl]
        · simp [hd, hl]

/-- A non-ghost regular file whose inode the search finds: a link to the found
file if that is another file, else a clone at the offset, which then advances by
the padded size; a file excluded by the prefix filter gets no action. -/
theorem reflink_file_content (E : Env) (G : globals) (inodes : List ifi_t) (ninodes i off c : Nat)
    (h : has_content G i = true) (hoff : off % 4096 = 0)
    (hb : bsearch (search_inode (file_inode G i)) inodes ninodes
      = some ⟨file_inode G i, (c : Int)⟩) :
    reflink_file E G inodes ninodes i off =
      if c = i then
        some ((if is_filtered E G i then [] else
            [Action.mkdir (E.install_root ++ dirname G i) 0o755,
             create_clone_from (file_path E G i) (file_mode G i) off (file_size G i)]),
          off + page_pad (file_size G i))
      else
        some ((if is_filtered E G i then [] else
            [Action.mkdir (E.install_root ++ dirname G i) 0o755,
             Action.link (E.install_root ++ dirname G c ++ basename G c) (file_path E G i)]),
          off) := by
  unfold has_content at h
  simp only [Bool.and_eq_true, Bool.not_eq_true'] at h
  obtain ⟨hg, hreg⟩ := h
  obtain ⟨hd, hl⟩ := not_dir_lnk_of_reg _ hreg
  unfold reflink_file
  simp only [hg, hreg, hd, hl, hb, Bool.not_true, Bool.and_false, Bool.false_eq_true, if_false,
    file_path]
  by_cases hc : c = i
  · subst hc
    simp only [ne_eq, not_true_eq_false, if_false, if_true]
    have hpad : (if (off + file_size G c) &&& (PAGE_SIZE - 1) ≠ 0
        then off + file_size G c + (PAGE_SIZE - (file_size G c &&& (PAGE_SIZE - 1)))
        else off + file_size G c) = off + page_pad (file_size G c) := by
      rw [and_page, and_page]
      unfold page_pad
      simp only [PAGE_SIZE]
      split <;> omega
    rw [hpad]
    by_cases hs : is_filtered E G c = true
    · simp [hs]
    · simp only [Bool.not_eq_true] at hs
      simp [hs]
  · have hci : ¬ ((c : Int) = (i : Int)) := by omega
    simp only [ne_eq, hci, not_false_eq_true, if_true, hc, if_false]
    by_cases hs : is_filtered E G i = true
    · simp [hs]
    · simp only [Bool.not_eq_true] at hs
      simp [hs]

theorem is_canonical_iff (G : globals) (n i c : Nat) (hi : i < n) (hc : c < n)
    (hci : file_inode G c = file_inode G i)
    (hmin : ∀ j, j < n → file_inode G j = file_inode G i → c ≤ j) :
    is_canonical G n i = true ↔ c = i := by
  unfold is_canonical
  rw [decide_eq_true_iff]
  constructor
  · intro h
    have h1 := h c hc hci
    have h2 := hmin i hi rfl
    omega
  · rintro rfl j hj hji
    exact hmin j hj hji

theorem reflink_file_advance (E : Env) (G : globals) (n i off : Nat) (hi : i < n)
    (hoff : off % 4096 = 0) :
    ∃ acts, reflink_file E G (inode_table G n).1 (inode_table G n).2 i off
      = some (acts, off + advance G n i) := by
  cases hcont : has_content G i with
  | false =>
    have : advance G n i = 0 := by simp [advance, hcont]
    rw [this]
    exact reflink_file_no_content E G _ _ i off hcont
  | true =>
    obtain ⟨c, hb, hc, hci, hmin⟩ := inode_table_lookup G n i hi
    rw [reflink_file_content E G _ _ i off c hcont hoff hb]
    have hcan := is_canonical_iff G n i c hi hc hci hmin
    by_cases hce : c = i
    · have : advance G n i = page_pad (file_size G i) := by
        simp [advance, hcont, hcan.2 hce]
      rw [this, if_pos hce]
      exact ⟨_, rfl⟩
    · have hnc : is_canonical G n i = false := by
        cases h : is_canonical G n i
        · rfl
        · exact absurd (hcan.1 h) hce
      have : advance G n i = 0 := by simp [advance, hnc]
      rw [this, if_neg hce]
      exact ⟨_, rfl⟩

/-- The main loop from file `i` on, at a page-aligned offset: it returns, with
one action list for each of the `m` files left, and the list of file `i + t` is
what `reflink_file` gives at the offset advanced over the files before it. -/
theorem reflink_loop_spec (E : Env) (G : globals) (n : Nat) :
    ∀ (m i off : Nat), i + m ≤ n → off % 4096 = 0 →
    ∃ L, reflink_loop E G (inode_table G n).1 (inode_table G n).2 m i off = some L ∧
      L.length = m ∧
      ∀ t, t < m → ∃ acts off1, L[t]? = some acts ∧
        reflink_file E G (inode_table G n).1 (inode_table G n).2 (i + t)
          (off + ((List.range t).map (fun j => advance G n (i + j))).sum) = some (acts, off1) := by
  intro m
  induction m with
  | zero =>
    intro i off _ _
    exact ⟨[], rfl, rfl, fun t ht => absurd ht (by omega)⟩
  | succ m ih =>
    intro i off him hoff
    obtain ⟨acts, hacts⟩ := reflink_file_advance E G n i off (by omega) hoff
    have hoff1 : (off + advance G n i) % 4096 = 0 := by
      have := advance_mod G n i
      omega
    obtain ⟨L, hL, hlen, hall⟩ := ih (i + 1) (off + advance G n i) (by omega) hoff1
    refine ⟨acts :: L, ?_, by simp [hlen], ?_⟩
    · simp only [reflink_loop, hacts, hL]
    · intro t ht
      cases t with
      | zero =>
        refine ⟨acts, off + advance G n i, by simp, ?_⟩
        simpa using hacts
      | succ t =>
        obtain ⟨a1, o1, h1, h2⟩ := hall t (by omega)
        refine ⟨a1, o1, by simpa using h1, ?_⟩
        have hsum : ((List.range (t + 1)).map (fun j => advance G n (i + j))).sum
            = advance G n i + ((List.range t).map (fun j => advance G n (i + 1 + j))).sum := by
          rw [List.range_succ_eq_map, List.map_cons, List.sum_cons, List.map_map]
          simp only [Nat.add_zero]
          congr 2
          apply List.map_congr_left
          intro j _
          simp only [Function.comp, Nat.succ_eq_add_one]
          congr 1
          omega
        rw [hsum]
        have e1 : i + (t + 1) = i + 1 + t := by omega
        rw [e1, ← Nat.add_assoc]
        exact h2

theorem reflink_package_spec (E : Env) (G : globals) (pos : Nat)
    (hn : 0 ≤ rpm_getcount G TAG_BASENAMES) :
    ∃ L, reflink_package E G pos = some L ∧ L.length = nfiles G ∧
      ∀ k, k < nfiles G → ∃ acts off1, L[k]? = some acts ∧
        reflink_file E G (inode_table G (nfiles G)).1 (inode_table G (nfiles G)).2 k
          (page_pad pos + ((List.range k).map (fun j => advance G (nfiles G) j)).sum)
          = some (acts, off1) := by
  obtain ⟨L, hL, hlen, hall⟩ := reflink_loop_spec E G (nfiles G) (nfiles G) 0 (page_pad pos)
    (by omega) (page_pad_mod pos)
  refine ⟨L, ?_, hlen, ?_⟩
  · unfold reflink_package
    have : ¬ rpm_getcount G TAG_BASENAMES < 0 := by omega
    simp only [this, if_false, payload_start_eq]
    exact hL
  · intro k hk
    obtain ⟨acts, off1, h1, h2⟩ := hall k hk
    simp only [Nat.zero_add] at h2
    exact ⟨acts, off1, h1, h2⟩

theorem sum_map_ite_eq_filter (l : List Nat) (p : Nat → Bool) (f : Nat → Nat) :
    (l.map (fun j => if p j then f j else 0)).sum = ((l.filter p).map f).sum := by
  induction l with
  | nil => rfl
  | cons a l ih =>
    by_cases h : p a = true
    · simp [h, ih]
    · simp only [Bool.not_eq_true] at h
      simp [h, ih]

/-! ## C8: hard link groups -/

/-- C8: for the files that share the inode number `v`, all regular, none
ghost-flagged or excluded by the prefix filter, with `lo` the lowest file index
among them: `reflink_package` returns; for `lo` it makes the directory and one
clone; for every other member it makes the directory and a hard link whose
existing path is `install_root + dirname + basename` of `lo`; so the lists of
the group hold exactly one clone, that of `lo`. -/
theorem reflink_hardlink_group (E : Env) (G : globals) (pos : Nat) (v : Int) (lo : Nat)
    (hn : 0 ≤ rpm_getcount G TAG_BASENAMES) (hlo : lo < nfiles G) (hlov : file_inode G lo = v)
    (hmin : ∀ j, j < nfiles G → file_inode G j = v → lo ≤ j)
    (hgrp : ∀ j, j < nfiles G → file_inode G j = v →
      has_content G j = true ∧ is_filtered E G j = false) :
    ∃ L, reflink_package E G pos = some L ∧ L.length = nfiles G ∧
      (∃ off, L[lo]? = some
        [Action.mkdir (E.install_root ++ dirname G lo) 0o755,
         create_clone_from (file_path E G lo) (file_mode G lo) off (file_size G lo)]) ∧
      (∀ i, i < nfiles G → file_inode G i = v → i ≠ lo →
        L[i]? = some
          [Action.mkdir (E.install_root ++ dirname G i) 0o755,
           Action.link (E.install_root ++ dirname G lo ++ basename G lo) (file_path E G i)]) ∧
      (∀ i, i < nfiles G → file_inode G i = v → ∀ acts, L[i]? = some acts →
        (acts.filter is_clone_action).length = if i = lo then 1 else 0) := by
  obtain ⟨L, hL, hlen, hall⟩ := reflink_package_spec E G pos hn
  have hmember : ∀ i, i < nfiles G → file_inode G i = v → ∃ off,
      L[i]? = some (if lo = i then
          [Action.mkdir (E.install_root ++ dirname G i) 0o755,
           create_clone_from (file_path E G i) (file_mode G i) off (file_size G i)]
        else
          [Action.mkdir (E.install_root ++ dirname G i) 0o755,
           Action.link (E.install_root ++ dirname G lo ++ basename G lo) (file_path E G i)]) := by
    intro i hi hiv
    obtain ⟨acts, off1, h1, h2⟩ := hall i hi
    obtain ⟨hcont, hfil⟩ := hgrp i hi hiv
    obtain ⟨c, hb, hc, hci, hcmin⟩ := inode_table_lookup G (nfiles G) i hi
    have hclo : c = lo := by
      have h3 := hmin c hc (by rw [hci, hiv])
      have h4 := hcmin lo hlo (by rw [hlov, hiv])
      omega
    subst hclo
    rw [reflink_file_content E G _ _ i _ c hcont
      (by have := page_pad_mod pos
          have : ∀ l : List Nat, (∀ x ∈ l, x % 4096 = 0) → l.sum % 4096 = 0 := by
            intro l
            induction l with
            | nil => intro _; rfl
            | cons a l ih =>
              intro h
              have ha := h a (List.mem_cons_self _ _)
              have hl := ih (fun x hx => h x (List.mem_cons_of_mem _ hx))
              simp only [List.sum_cons]
              omega
          have hs := this ((List.range i).map (fun j => advance G (nfiles G) j)) (by
            intro x hx
            obtain ⟨j, _, rfl⟩ := List.mem_map.1 hx
            exact advance_mod G _ j)
          omega) hb] at h2
    refine ⟨page_pad pos + ((List.range i).map (fun j => advance G (nfiles G) j)).sum, ?_⟩
    rw [h1]
    by_cases hce : c = i
    · rw [if_pos hce] at h2
      simp only [hfil, Bool.false_eq_true, if_false, Option.some.injEq, Prod.mk.injEq] at h2
      rw [if_pos hce, ← h2.1]
    · rw [if_neg hce] at h2
      simp only [hfil, Bool.false_eq_true, if_false, Option.some.injEq, Prod.mk.injEq] at h2
      rw [if_neg hce, ← h2.1]
  refine ⟨L, hL, hlen, ?_, ?_, ?_⟩
  · obtain ⟨off, h⟩ := hmember lo hlo hlov
    rw [if_pos rfl] at h
    exact ⟨off, h⟩
  · intro i hi hiv hne
    obtain ⟨off, h⟩ := hmember i hi hiv
    rw [if_neg (fun h => hne h.symm)] at h
    exact h
  · intro i hi hiv acts hacts
    obtain ⟨off, h⟩ := hmember i hi hiv
    rw [hacts] at h
    simp only [Option.some.injEq] at h
    subst h
    by_cases hce : lo = i
    · subst hce
      simp [create_clone_from, is_clone_action]
    · have : ¬ i = lo := fun h => hce h.symm
      simp [hce, this, is_clone_action]

/-- Witness of `reflink_hardlink_group`: in `sample_pkg` the files 3 and 7 share
inode 42; file 3 is cloned and file 7 is linked to the path of file 3. -/
theorem reflink_hardlink_group_witness :
    ∃ L, reflink_package sample_env sample_pkg 869 = some L ∧ L.length = nfiles sample_pkg ∧
      (∃ off, L[3]? = some
        [Action.mkdir (sample_env.install_root ++ dirname sample_pkg (3 : Nat)) 0o755,
         create_clone_from (file_path sample_env sample_pkg 3) (file_mode sample_pkg 3) off
           (file_size sample_pkg 3)]) ∧
      (∀ i, i < nfiles sample_pkg → file_inode sample_pkg i = 42 → i ≠ 3 →
        L[i]? = some
          [Action.mkdir (sample_env.install_root ++ dirname sample_pkg i) 0o755,
           Action.link
             (sample_env.install_root ++ dirname sample_pkg (3 : Nat) ++ basename sample_pkg (3 : Nat))
             (file_path sample_env sample_pkg i)]) ∧
      (∀ i, i < nfiles sample_pkg → file_inode sample_pkg i = 42 → ∀ acts, L[i]? = some acts →
        (acts.filter is_clone_action).length = if i = 3 then 1 else 0) :=
  reflink_hardlink_group sample_env sample_pkg 869 42 3 (by decide) (by decide) (by decide)
    (by decide) (by decide)

/-! ## C9: clone source offsets -/

theorem sum_advance_mod (G : globals) (n k : Nat) :
    ((List.range k).map (fun j => advance G n j)).sum % 4096 = 0 := by
  induction k with
  | zero => rfl
  | succ k ih =>
    rw [List.range_succ, List.map_append, List.sum_append]
    have := advance_mod G n k
    simp only [List.map_cons, List.map_nil, List.sum_cons, List.sum_nil, Nat.add_zero]
    omega

/-- The offset at which a file that is the first with its inode is cloned: the
page-aligned start plus the padded sizes of the earlier non-ghost regular files
that are the first with their inode, whether or not the prefix filter excludes
them. -/
theorem reflink_clone_offsets_general (E : Env) (G : globals) (pos : Nat)
    (hn : 0 ≤ rpm_getcount G TAG_BASENAMES) :
    ∃ L, reflink_package E G pos = some L ∧ L.length = nfiles G ∧
      ∀ k, k < nfiles G → has_content G k = true → is_canonical G (nfiles G) k = true →
        L[k]? = some (if is_filtered E G k then [] else
          [Action.mkdir (E.install_root ++ dirname G k) 0o755,
           create_clone_from (file_path E G k) (file_mode G k)
             (page_pad pos + ((List.range k).map (fun j => advance G (nfiles G) j)).sum)
             (file_size G k)]) := by
  obtain ⟨L, hL, hlen, hall⟩ := reflink_package_spec E G pos hn
  refine ⟨L, hL, hlen, ?_⟩
  intro k hk hcont hcan
  obtain ⟨acts, off1, h1, h2⟩ := hall k hk
  obtain ⟨c, hb, hc, hci, hcmin⟩ := inode_table_lookup G (nfiles G) k hk
  have hck : c = k := (is_canonical_iff G (nfiles G) k c hk hc hci hcmin).1 hcan
  have hmod : (page_pad pos + ((List.range k).map (fun j => advance G (nfiles G) j)).sum) % 4096
      = 0 := by
    have h3 := page_pad_mod pos
    have h4 := sum_advance_mod G (nfiles G) k
    omega
  rw [reflink_file_content E G _ _ k _ c hcont hmod hb, if_pos hck] at h2
  simp only [Option.some.injEq, Prod.mk.injEq] at h2
  rw [h1, ← h2.1]

/-- C9, counterexample: in `symlink_pkg` the non-ghost regular files are the
files 1 and 2, of sizes 10 and 20, and their inode numbers 5 and 6 differ; the
symbolic link at index 0 also carries inode 5. Read from stream position 869,
`reflink_package` makes file 1 a hard link to the path of the symbolic link and
clones nothing for it, the offset does not advance, and file 2 is cloned from
offset 4096, where the formula `payloadStart + pad(10)` gives 8192. -/
theorem reflink_clone_offset_after_symlink :
    (List.range (nfiles symlink_pkg)).filter (has_content symlink_pkg) = [1, 2] ∧
    (∀ i, i < nfiles symlink_pkg → ∀ j, j < nfiles symlink_pkg →
      has_content symlink_pkg i = true → has_content symlink_pkg j = true →
      file_inode symlink_pkg i = file_inode symlink_pkg j → i = j) ∧
    reflink_package sample_env symlink_pkg 869
      = some
        [[Action.mkdir [47, 114, 47] 0o755, Action.symlink [97] [47, 114, 47, 108]],
         [Action.mkdir [47, 114, 47] 0o755, Action.link [47, 114, 47, 108] [47, 114, 47, 97]],
         [Action.mkdir [47, 114, 47] 0o755, Action.clone [47, 114, 47, 98] 0o644 4096 4096 20]] ∧
    page_pad 869
      + (((List.range 2).filter (has_content symlink_pkg)).map
          (fun j => page_pad (file_size symlink_pkg j))).sum = 8192 := by
  decide

/-- The function `create_clone_from` clones `size` rounded up to the page from
the offset it is given. -/
theorem create_clone_from_eq (path : List Nat) (mode off size : Nat) :
    create_clone_from path mode off size
      = Action.clone path (mode &&& 0o7777) off (page_pad size) size := by
  unfold create_clone_from page_pad
  simp only [and_page]
  simp only [PAGE_SIZE]
  have h : (size + (if size % 4096 ≠ 0 then 4096 - size % 4096 else 0))
      = (size + (4096 - 1)) / 4096 * 4096 := by
    split <;> omega
  rw [h]

/-- C9, amended: in a package where no non-ghost regular file has the inode
number of a file record of lower index, of whatever kind, `reflink_package`
returns, and for a non-ghost regular file `k` that the prefix filter keeps it
makes the directory and one clone whose source offset is the stream position at
entry rounded up to the page, plus the page-padded sizes of the non-ghost
regular files before `k`; the sum takes every such file, whether or not the
prefix filter excludes it. The clone covers the size of `k` rounded up to the
page. For a file `k` that the prefix filter excludes nothing is done. -/
theorem reflink_clone_offsets (E : Env) (G : globals) (pos : Nat)
    (hn : 0 ≤ rpm_getcount G TAG_BASENAMES)
    (hfirst : ∀ i, i < nfiles G → has_content G i = true →
      ∀ j, j < i → file_inode G j ≠ file_inode G i) :
    ∃ L, reflink_package E G pos = some L ∧ L.length = nfiles G ∧
      ∀ k, k < nfiles G → has_content G k = true →
        L[k]? = some (if is_filtered E G k then [] else
          [Action.mkdir (E.install_root ++ dirname G k) 0o755,
           Action.clone (file_path E G k) (file_mode G k &&& 0o7777)
             (page_pad pos
               + (((List.range k).filter (has_content G)).map
                   (fun j => page_pad (file_size G j))).sum)
             (page_pad (file_size G k)) (file_size G k)]) := by
  obtain ⟨L, hL, hlen, hall⟩ := reflink_clone_offsets_general E G pos hn
  refine ⟨L, hL, hlen, ?_⟩
  intro k hk hcont
  have hcan : ∀ i, i < nfiles G → has_content G i = true → is_canonical G (nfiles G) i = true := by
    intro i hi hci
    unfold is_canonical
    rw [decide_eq_true_iff]
    intro j _ hji
    by_contra hlt
    exact hfirst i hi hci j (by omega) hji
  have hadv : ∀ j ∈ List.range k, advance G (nfiles G) j
      = (fun j => if has_content G j then page_pad (file_size G j) else 0) j := by
    intro j hj
    have hjk := List.mem_range.1 hj
    by_cases hc : has_content G j = true
    · simp [advance, hc, hcan j (by omega) hc]
    · simp only [Bool.not_eq_true] at hc
      simp [advance, hc]
  rw [hall k hk hcont (hcan k hk hcont), List.map_congr_left hadv, sum_map_ite_eq_filter,
    create_clone_from_eq]

/-- Witness of `reflink_clone_offsets`: `sample_pkg_distinct`, eight regular
files of sizes 5000, 10, 0, 4096, 1, 2, 3, 4 with eight different inode numbers,
read from stream position 869. File 0 is cloned from offset 4096, file 3 from
16384 = 4096 + 8192 + 4096 + 0, file 7 from 32768. -/
theorem reflink_clone_offsets_witness :
    ∃ L, reflink_package sample_env sample_pkg_distinct 869 = some L ∧
      L.length = 8 ∧
      L[0]? = some [Action.mkdir [47, 114, 47] 0o755,
                    Action.clone [47, 114, 47, 97] 0o644 4096 8192 5000] ∧
      L[3]? = some [Action.mkdir [47, 114, 47] 0o755,
                    Action.clone [47, 114, 47, 100] 0o644 16384 4096 4096] ∧
      L[7]? = some [Action.mkdir [47, 114, 47] 0o755,
                    Action.clone [47, 114, 47, 104] 0o644 32768 4096 4] := by
  obtain ⟨L, hL, hlen, hall⟩ :=
    reflink_clone_offsets sample_env sample_pkg_distinct 869 (by decide) (by decide)
  exact ⟨L, hL, hlen.trans (by decide), (hall 0 (by decide) (by decide)).trans (by decide),
    (hall 3 (by decide) (by decide)).trans (by decide),
    (hall 7 (by decide) (by decide)).trans (by decide)⟩

/-- The run of `reflink_package` on `sample_pkg` from stream position 869: file
3 is cloned from offset 16384 = 4096 + 8192 + 4096 + 0, file 7 is linked to
`/r/d`, the path of file 3. -/
theorem reflink_sample_run :
    (reflink_package sample_env sample_pkg 869).map (fun L => (L[3]?, L[7]?))
      = some
        (some [Action.mkdir [47, 114, 47] 0o755,
               Action.clone [47, 114, 47, 100] 0o644 16384 4096 4096],
         some [Action.mkdir [47, 114, 47] 0o755,
               Action.link [47, 114, 47, 100] [47, 114, 47, 104]]) := by
  decide

/-! ## C12: integer entries of an unsupported type -/

/-- C12, counterexample: in `int64_index` the lookup finds the entry of tag 1009
with type code 5 and count 1, and `rpm_getint(1009, 0)` returns the integer -1,
having read nothing; it does not exit. -/
theorem rpm_getint_int64_returns :
    find_tag int64_index 1009 = some ⟨1009, 5, 0, 1⟩ ∧
    rpm_getint int64_index 1009 0 = ⟨-1, []⟩ := by
  decide

/-- C12, amended: for an entry found by the lookup whose type code is none of
`RPM_INT8_TYPE`, `RPM_INT16_TYPE`, `RPM_INT32_TYPE` (so also for the code 5 of
64-bit integers) and an index below its count, `rpm_getint` returns -1, the
value it returns for an absent tag, without reading a byte of the mapping. -/
theorem rpm_getint_unsupported (G : globals) (tag : Int) (found : rpm_index) (i : Nat)
    (hf : find_tag G tag = some found) (hi : i < found.count) (hint : i < 2 ^ 31)
    (h8 : found.type ≠ RPM_INT8_TYPE) (h16 : found.type ≠ RPM_INT16_TYPE)
    (h32 : found.type ≠ RPM_INT32_TYPE) :
    rpm_getint G tag i = ⟨-1, []⟩ := by
  have hu : toUInt32 (i : Int) = i := toUInt32_natCast i (by omega)
  have hlt : ¬ toUInt32 (i : Int) ≥ found.count := by omega
  unfold rpm_getint
  simp only [hf, hlt, if_false, h8, h16, h32]

/-- Witness of `rpm_getint_unsupported`: element 0 of the type-5 entry of
`int64_index`. -/
theorem rpm_getint_unsupported_witness :
    rpm_getint int64_index 1009 (0 : Nat) = ⟨-1, []⟩ :=
  rpm_getint_unsupported int64_index 1009 ⟨1009, 5, 0, 1⟩ 0 (by decide) (by decide) (by decide)
    (by decide) (by decide) (by decide)

/-! ## C13: the inode table and the search of `reflink_package` -/

/-- The part `inodes[0..ninodes)` that `reflink_package` searches: the first
pair of the sorted array and, of the pairs after it, the first of every run of
equal inodes. -/
theorem inode_table_prefix (G : globals) (n : Nat) (hn : 1 ≤ n) :
    ∃ a l, qsort compare_inodes (fill_inodes G n) = a :: l ∧
      ((inode_table G n).1).take (inode_table G n).2 = a :: first_of_runs a l := by
  have hperm := qsort_perm (fill_inodes G n)
  have hlen : (qsort compare_inodes (fill_inodes G n)).length = n := by
    rw [hperm.length_eq]
    simp [fill_inodes]
  cases hq : qsort compare_inodes (fill_inodes G n) with
  | nil => rw [hq] at hlen; simp at hlen; omega
  | cons a l =>
    rw [hq] at hlen
    have hl : l.length = n - 1 := by simp at hlen; omega
    have hspec := dedup_loop_spec l 1 (a :: l) 0 a (by omega) (by simp) (by simp)
    simp only [List.take_succ_cons, List.take_zero, List.singleton_append, Nat.zero_add] at hspec
    refine ⟨a, l, rfl, ?_⟩
    unfold inode_table
    rw [hq, ← hl]
    exact hspec

theorem inode_lt_injective (T : List ifi_t) (h : T.Pairwise (fun x y => x.inode < y.inode)) :
    ∀ x ∈ T, ∀ y ∈ T, x.inode = y.inode → x = y := by
  intro x hx y hy hxy
  by_contra hne
  have hsym : Symmetric (fun (x y : ifi_t) => x.inode ≠ y.inode) := fun _ _ h => fun e => h e.symm
  have hpw : T.Pairwise (fun x y => x.inode ≠ y.inode) := h.imp (fun h => ne_of_lt h)
  exact hpw.forall hsym hx hy hne hxy

/-- C13: for a package with at least one file, the part `inodes[0..ninodes)` of
the array after the sort by `compare_inodes` and the in-place deduplication has
strictly ascending inodes, has no two pairs with one inode, holds for every file
a pair with the inode of that file, and each of its pairs carries an inode of
the package with the lowest file index that has it; so the search with
`search_inode` for the inode of any file index below `nfiles` finds a pair, no
file reaches the exit `inode not found`, and `reflink_package` returns. -/
theorem inode_table_sound (E : Env) (G : globals) (pos : Nat)
    (hn : 1 ≤ rpm_getcount G TAG_BASENAMES) :
    (((inode_table G (nfiles G)).1).take (inode_table G (nfiles G)).2).Pairwise
        (fun x y => x.inode < y.inode) ∧
    (∀ x ∈ ((inode_table G (nfiles G)).1).take (inode_table G (nfiles G)).2,
      ∀ y ∈ ((inode_table G (nfiles G)).1).take (inode_table G (nfiles G)).2,
        x.inode = y.inode → x = y) ∧
    (∀ i, i < nfiles G →
      ∃ x ∈ ((inode_table G (nfiles G)).1).take (inode_table G (nfiles G)).2,
        x.inode = file_inode G i) ∧
    (∀ x ∈ ((inode_table G (nfiles G)).1).take (inode_table G (nfiles G)).2,
      ∃ c, c < nfiles G ∧ x = ⟨file_inode G c, (c : Int)⟩ ∧
        ∀ j, j < nfiles G → file_inode G j = file_inode G c → c ≤ j) ∧
    (∀ i, i < nfiles G →
      ∃ found, bsearch (search_inode (file_inode G i)) (inode_table G (nfiles G)).1
          (inode_table G (nfiles G)).2 = some found ∧ found.inode = file_inode G i) ∧
    (∀ i off, i < nfiles G →
      reflink_file E G (inode_table G (nfiles G)).1 (inode_table G (nfiles G)).2 i off ≠ none) ∧
    reflink_package E G pos ≠ none := by
  have hn1 : 1 ≤ nfiles G := by unfold nfiles; omega
  obtain ⟨a, l, hq, hT⟩ := inode_table_prefix G (nfiles G) hn1
  have hsorted : (a :: l).Pairwise inode_le := by
    rw [← hq]; exact qsort_sorted _
  have hmem : ∀ x, x ∈ a :: l ↔ ∃ j, j < nfiles G ∧ x = ⟨file_inode G j, (j : Int)⟩ := by
    intro x
    rw [← hq, (qsort_perm (fill_inodes G (nfiles G))).mem_iff, mem_fill_inodes]
  have hpw := first_of_runs_pairwise l a hsorted
  have hsearch : ∀ i, i < nfiles G →
      ∃ found, bsearch (search_inode (file_inode G i)) (inode_table G (nfiles G)).1
          (inode_table G (nfiles G)).2 = some found ∧ found.inode = file_inode G i := by
    intro i hi
    obtain ⟨c, hb, _, _, _⟩ := inode_table_lookup G (nfiles G) i hi
    exact ⟨_, hb, rfl⟩
  rw [hT]
  refine ⟨hpw, inode_lt_injective _ hpw, ?_, ?_, hsearch, ?_, ?_⟩
  · intro i hi
    exact first_of_runs_cover l a _ ((hmem _).2 ⟨i, hi, rfl⟩)
  · intro x hx
    obtain ⟨hxl, hmin⟩ := first_of_runs_min l a x hsorted hx
    obtain ⟨c, hc, hxc⟩ := (hmem x).1 hxl
    refine ⟨c, hc, hxc, ?_⟩
    intro j hj hjc
    have := hmin _ ((hmem _).2 ⟨j, hj, rfl⟩) (by rw [hxc]; exact hjc)
    rw [hxc] at this
    simp only at this
    omega
  · intro i off hi
    obtain ⟨found, hb, _⟩ := hsearch i hi
    unfold reflink_file
    simp only [hb]
    split
    · simp
    · split
      · simp
      · split
        · simp
        · split
          · simp
          · split
            · simp
            · split
              · split <;> simp
              · simp
  · obtain ⟨L, hL, _⟩ := reflink_package_spec E G pos (by omega)
    rw [hL]
    simp

/-- Witness of `inode_table_sound`: `sample_pkg`, whose files 3 and 7 share inode
42; the table keeps seven pairs, the one of inode 42 with file index 3. -/
theorem inode_table_sound_witness :
    1 ≤ rpm_getcount sample_pkg TAG_BASENAMES ∧
    ((inode_table sample_pkg (nfiles sample_pkg)).1).take
        (inode_table sample_pkg (nfiles sample_pkg)).2
      = [⟨1, 0⟩, ⟨2, 1⟩, ⟨3, 2⟩, ⟨5, 4⟩, ⟨6, 5⟩, ⟨7, 6⟩, ⟨42, 3⟩] ∧
    (((inode_table sample_pkg (nfiles sample_pkg)).1).take
        (inode_table sample_pkg (nfiles sample_pkg)).2).Pairwise
        (fun x y => x.inode < y.inode) ∧
    reflink_package sample_env sample_pkg 869 ≠ none :=
  have h := inode_table_sound sample_env sample_pkg 869 (by decide)
  ⟨by decide, by decide, h.1, h.2.2.2.2.2.2⟩

/-! ## C11: the length of the mapping -/

theorem gettags_pass_storepos (file : List Nat) (pass : Nat) (st st1 : gettags_state)
    (h : gettags_pass file pass st = some st1) : st1.storepos = st1.pos % 2 ^ 32 := by
  unfold gettags_pass at h
  cases hx1 : xread file st.pos sizeof_rpm_header with
  | none => rw [hx1] at h; exact absurd h (by simp)
  | some header =>
    rw [hx1] at h
    simp only at h
    by_cases hm : word_at header 0 ≠ htonl RPM_HEADER_MAGICnVER
    · rw [if_pos hm] at h; exact absurd h (by simp)
    · rw [if_neg hm] at h
      cases hx2 : xread file (st.pos + sizeof_rpm_header) (16 * ntohl (word_at header 8)) with
      | none => rw [hx2] at h; exact absurd h (by simp)
      | some raw =>
        rw [hx2] at h
        simp only [Option.some.injEq] at h
        subst h
        rfl

/-- The mapping length that `rpm_gettags` records is
`(storepos + pagesize) & -(int)pagesize` for the file position it leaves, and
the mapping is that of this length. -/
theorem rpm_gettags_mapsize_eq (file : List Nat) (start pagesize : Nat) (G : globals) (pos : Nat)
    (h : rpm_gettags file start pagesize = some (G, pos)) :
    G.mapsize = ((pos % 2 ^ 32 + pagesize) % 2 ^ 32) &&& ((2 ^ 32 - pagesize % 2 ^ 32) % 2 ^ 32)
      ∧ mmap_read file G.mapsize pagesize = some G.map := by
  obtain ⟨st1, st2, _, h2, _, hpos, hms, hmap⟩ := rpm_gettags_inv file start pagesize G pos h
  rw [gettags_pass_storepos file 1 st1 st2 h2, ← hpos] at hms
  exact ⟨hms, hmap⟩

theorem next_multiple_least (L P : Nat) (hmod : L % P ≠ 0) (m : Nat)
    (hdvd : P ∣ m) (hle : L ≤ m) : (L / P + 1) * P ≤ m := by
  obtain ⟨q, rfl⟩ := hdvd
  have h1 := Nat.div_add_mod L P
  have hq : L / P < q := by
    by_contra hcon
    have hql : q ≤ L / P := by omega
    have : P * q ≤ P * (L / P) := Nat.mul_le_mul_left P hql
    omega
  calc (L / P + 1) * P ≤ q * P := Nat.mul_le_mul_right P hq
    _ = P * q := Nat.mul_comm q P

/-- The mapping length for a page size `2^k` and a decoded package whose total
store length `L` has `L + 2^k` below 2^32: the next multiple of the page size
above `L`. That is the smallest multiple not less than `L` when `L` is no
multiple of the page size, and `L` plus one page when it is. -/
theorem rpm_gettags_mapsize (file : List Nat) (start k : Nat) (G : globals) (L : Nat)
    (h : rpm_gettags file start (2 ^ k) = some (G, L)) (hk : k < 32) (hL : L + 2 ^ k < 2 ^ 32) :
    G.mapsize = (L / 2 ^ k + 1) * 2 ^ k ∧
    (L % 2 ^ k ≠ 0 →
      2 ^ k ∣ G.mapsize ∧ L ≤ G.mapsize ∧ ∀ m, 2 ^ k ∣ m → L ≤ m → G.mapsize ≤ m) ∧
    (L % 2 ^ k = 0 → G.mapsize = L + 2 ^ k) := by
  have hp : 0 < 2 ^ k := Nat.two_pow_pos k
  have hm : G.mapsize = (L / 2 ^ k + 1) * 2 ^ k := by
    have hp2 : 0 < 2 ^ k := Nat.two_pow_pos k
    have hL32 : L % 2 ^ 32 = L := Nat.mod_eq_of_lt (by omega)
    rw [(rpm_gettags_mapsize_eq file start (2 ^ k) G L h).1, hL32, mapsize_formula L k hk hL]
  refine ⟨hm, ?_, ?_⟩
  · intro hmod
    rw [hm]
    refine ⟨Nat.dvd_mul_left _ _, ?_, fun m hd hle => next_multiple_least L _ hmod m hd hle⟩
    have h1 := Nat.div_add_mod L (2 ^ k)
    have h2 := Nat.mod_lt L hp
    rw [Nat.add_mul, Nat.one_mul, Nat.mul_comm]
    omega
  · intro hmod
    rw [hm]
    have h1 := Nat.div_add_mod L (2 ^ k)
    rw [Nat.add_mul, Nat.one_mul, Nat.mul_comm]
    omega

theorem aligned_file_length : aligned_file.length = 4096 := by
  unfold aligned_file
  simp only [List.length_append, List.length_replicate, List.length_cons, List.length_nil]

theorem aligned_file_well_formed : well_formed aligned_file 1 4 2 3912 := by
  unfold well_formed
  refine ⟨by decide, by decide, by decide, by decide, by decide, by decide, ?_, by decide,
    by decide, by decide⟩
  rw [aligned_file_length]
  decide

/-- C11: `aligned_file` is a well-formed package file of 4096 bytes whose total
store length is 4096, a multiple of the page size 4096; `rpm_gettags` decodes
it, leaves the file position at 4096 and records the mapping length 8192, one
page more than 4096 rounded up to the page size. -/
theorem rpm_gettags_aligned_mapsize :
    aligned_file.length = 4096 ∧ well_formed aligned_file 1 4 2 3912 ∧
    total_store_length 1 4 2 3912 = 4096 ∧
    ∃ G, rpm_gettags aligned_file 0 4096 = some (G, 4096) ∧ G.mapsize = 8192 := by
  refine ⟨aligned_file_length, aligned_file_well_formed, by decide, ?_⟩
  obtain ⟨map, _, hG⟩ := rpm_gettags_decodes aligned_file 12 1 4 2 3912
    aligned_file_well_formed (by decide) (by decide)
  have ht : total_store_length 1 4 2 3912 = 4096 := by decide
  have hp : (2 : Nat) ^ 12 = 4096 := by decide
  rw [ht, hp] at hG
  exact ⟨_, hG, rfl⟩

/-- An instance of `rpm_gettags_mapsize`: `sample_file` has the total store
length 188 and is mapped with the length 4096. -/
theorem rpm_gettags_sample_mapsize :
    ∃ G, rpm_gettags sample_file 0 (2 ^ 12) = some (G, 188) ∧ G.mapsize = 4096 :=
  match hr : rpm_gettags sample_file 0 (2 ^ 12) with
  | some (G, L) =>
    have hL : L = 188 := by
      have h2 : (rpm_gettags sample_file 0 (2 ^ 12)).map (fun r => r.2) = some 188 := by
        set_option maxRecDepth 100000 in decide
      rw [hr] at h2
      simpa using h2
    ⟨G, by rw [hL], by
      subst hL
      rw [(rpm_gettags_mapsize sample_file 0 12 G 188 hr (by decide) (by decide)).1]
      decide⟩
  | none => absurd hr (by set_option maxRecDepth 100000 in decide)

end Rpm
